import Mathlib

/-!
Verification development for the dagrs DAG job engine.

The Rust sources are shallowly embedded: `std::collections::HashMap` becomes an
association list with insertion-ordered iteration, node ids (`NodeId(usize)`)
become `Nat`, type-erased `Content` payloads become `Nat` tags, and the
asynchronous per-node tasks of `Graph::run` are modelled by the deterministic
schedule in which a chunk's tasks run to completion when the chunk is awaited
(the schedule the block/abort logic of `Graph::run` intends).
-/

set_option maxHeartbeats 1000000

namespace Dagrs

/-! ## Association lists standing in for `HashMap`

`alookup` is `HashMap::get`, `aset` is `HashMap::insert` (replace the value of
an existing key, otherwise append the new entry), `aremove` is
`HashMap::remove`, `akeys` the key iterator.  Rust leaves a `HashMap`'s
iteration order unspecified; the embedding fixes it to insertion order. -/

def alookup {κ α : Type} [DecidableEq κ] (k : κ) : List (κ × α) → Option α
  | [] => none
  | (k', v) :: rest => if k' = k then some v else alookup k rest

def aset {κ α : Type} [DecidableEq κ] (k : κ) (v : α) : List (κ × α) → List (κ × α)
  | [] => [(k, v)]
  | (k', v') :: rest => if k' = k then (k, v) :: rest else (k', v') :: aset k v rest

def aremove {κ α : Type} [DecidableEq κ] (k : κ) : List (κ × α) → List (κ × α)
  | [] => []
  | (k', v') :: rest => if k' = k then rest else (k', v') :: aremove k rest

def akeys {κ α : Type} : List (κ × α) → List κ
  | [] => []
  | (k, _) :: rest => k :: akeys rest



/-! ## Content

`Content` (`src/connection/information_packet.rs`) is a type-erased,
clone-capable payload container.  The claims only move payloads around, so a
`Nat` tag stands in for the erased value. -/

abbrev Content := Nat

/-! ## Channel fabric: `src/connection/in_channel.rs` -/

/-- Embedding of `RecvErr` (`src/connection/in_channel.rs`). -/
inductive RecvErr
  | ChannelNExist
  | Closed
  | Lagged (n : Nat)
deriving DecidableEq, Repr

/-- Embedding of `InChannel`: a wrapper of a `tokio` mpsc or broadcast
receiver.  The receiver is modelled by its pending buffer; an empty buffer
yields the `Closed` error (the blocked-waiting case of a live sender is not
reachable in the sequential claims below, and tokio's `Lagged` bookkeeping is
internal to the broadcast channel and not modelled). -/
inductive InChannel
  | Mpsc (buf : List Content)
  | Bcst (buf : List Content)
deriving DecidableEq, Repr

/-- Embedding of `InChannel::recv` / `InChannel::blocking_recv`: both return
the next buffered value, or `RecvErr::Closed` when nothing can be received. -/
def InChannel.recv : InChannel → InChannel × Except RecvErr Content
  | .Mpsc [] => (.Mpsc [], .error .Closed)
  | .Mpsc (x :: rest) => (.Mpsc rest, .ok x)
  | .Bcst [] => (.Bcst [], .error .Closed)
  | .Bcst (x :: rest) => (.Bcst rest, .ok x)

/-- Embedding of `InChannels`: the per-node map from peer `NodeId` to input
channel endpoint. -/
abbrev InChannels := List (Nat × InChannel)

/-- Embedding of `InChannels::recv_from`: look the peer up; a missing entry
yields `RecvErr::ChannelNExist`, otherwise the channel's `recv` runs. -/
def InChannels.recv_from (m : InChannels) (id : Nat) : InChannels × Except RecvErr Content :=
  match alookup id m with
  | none => (m, .error .ChannelNExist)
  | some c =>
      let (c', r) := c.recv
      (aset id c' m, r)

/-- Embedding of `InChannels::blocking_recv_from`; the lookup structure is
identical to `recv_from`. -/
def InChannels.blocking_recv_from (m : InChannels) (id : Nat) :
    InChannels × Except RecvErr Content :=
  match alookup id m with
  | none => (m, .error .ChannelNExist)
  | some c =>
      let (c', r) := c.recv
      (aset id c' m, r)

/-- Embedding of `InChannels::close`: close the endpoint and remove the map
entry for `id` (a missing `id` is a no-op). -/
def InChannels.close (m : InChannels) (id : Nat) : InChannels :=
  match alookup id m with
  | none => m
  | some _ => aremove id m

/-! ## Channel fabric: `src/connection/out_channel.rs` -/

/-- Embedding of `SendErr` (`src/connection/out_channel.rs`).  The payload of
the tokio send errors is the rejected `Content`. -/
inductive SendErr
  | ChannelNExist
  | MpscError (c : Content)
  | BcstError (c : Content)
deriving DecidableEq, Repr

/-- Embedding of `OutChannel`: a wrapper of a `tokio` mpsc or broadcast
sender.  The receiver-side state that makes a tokio send fail lives inside the
runtime and is not modelled; the claims below only exercise the map-lookup
path of `OutChannels`. -/
inductive OutChannel
  | Mpsc
  | Bcst
deriving DecidableEq, Repr

/-- Embedding of `OutChannel::send` / `OutChannel::blocking_send` (the
delivered message goes to runtime state outside this model). -/
def OutChannel.send (_ : OutChannel) (_ : Content) : Except SendErr Unit := .ok ()

/-- Embedding of `OutChannels`: the per-node map from peer `NodeId` to output
channel endpoint. -/
abbrev OutChannels := List (Nat × OutChannel)

/-- Embedding of `OutChannels::send_to`: look the peer up; a missing entry
yields `SendErr::ChannelNExist`, otherwise the channel's `send` runs. -/
def OutChannels.send_to (m : OutChannels) (id : Nat) (content : Content) :
    Except SendErr Unit :=
  match alookup id m with
  | none => .error .ChannelNExist
  | some c => c.send content

/-- Embedding of `OutChannels::blocking_send_to`; the lookup structure is
identical to `send_to`. -/
def OutChannels.blocking_send_to (m : OutChannels) (id : Nat) (content : Content) :
    Except SendErr Unit :=
  match alookup id m with
  | none => .error .ChannelNExist
  | some c => c.send content

/-- Embedding of `OutChannels::close`: remove the map entry for `id` (a
missing `id` is a no-op). -/
def OutChannels.close (m : OutChannels) (id : Nat) : OutChannels :=
  match alookup id m with
  | none => m
  | some _ => aremove id m

/-! ## The legacy `ExecState` of `src/task/state.rs` -/

/-- Embedding of `Output` as defined in `src/task/state.rs`: a wrapper of an
optional `Content` payload. -/
structure OutputV1 where
  val : Option Content
deriving DecidableEq, Repr

/-- Embedding of `ExecState` as defined in `src/task/state.rs`.  The
`AtomicPtr<Output>` starts as a null pointer; `output = none` models null.
The semaphore used by `acquire_permits`/`add_permits` is runtime state and is
not needed by the claims. -/
structure ExecStateV1 where
  success : Bool
  output : Option OutputV1
  task_id : Nat
deriving DecidableEq, Repr

/-- Embedding of `ExecState::new`. -/
def ExecStateV1.new (task_id : Nat) : ExecStateV1 :=
  { success := false, output := none, task_id := task_id }

/-- Embedding of `ExecState::set_output`: stores `true` in `success` and leaks
a box holding the output into the pointer. -/
def ExecStateV1.set_output (s : ExecStateV1) (o : OutputV1) : ExecStateV1 :=
  { s with success := true, output := some o }

/-- Embedding of `ExecState::get_output`.  The code runs
`unsafe { self.output.load(..).as_ref().unwrap() }.0.clone()`: on a null
pointer `as_ref()` is `None` and the `unwrap()` panics, modelled as the
`Except.error` branch. -/
def ExecStateV1.get_output (s : ExecStateV1) : Except String (Option Content) :=
  match s.output with
  | none => .error "called Option::unwrap on a None value"
  | some o => .ok o.val

/-! ## Node outputs and run state used by `src/graph/graph.rs`

The module defining `Output` and the `ExecState` that `graph.rs` imports
(`crate::utils::execstate`) is absent from the sources; both are modelled from
the spec (§3 “Output”, §3/§4.5 “ExecState”) and from every use in
`graph.rs`. -/

/-- Modelled from the spec: the `Output` sum type of §3 — `Out(Option<Content>)`
for success, `Err(...)` for failure with a diagnostic, `ConditionResult(bool)`
for a conditional node's branch decision (its defining module is missing from
the sources; `graph.rs` uses `is_err`, `get_err` and `conditional_result`). -/
inductive Output
  | Out (payload : Option Content)
  | Err (msg : String)
  | ConditionResult (b : Bool)
deriving DecidableEq, Repr

/-- Accessor `Output::is_err` as used by `Graph::run`. -/
def Output.is_err : Output → Bool
  | .Err _ => true
  | _ => false

/-- Accessor `Output::get_err` as used by `Graph::run`. -/
def Output.get_err : Output → Option String
  | .Err m => some m
  | _ => none

/-- Accessor `Output::conditional_result` as used by `Graph::run`. -/
def Output.conditional_result : Output → Option Bool
  | .ConditionResult b => some b
  | _ => none

/-- Modelled from the spec: a node's per-run outcome,
`outcome ∈ {pending, success, failure}` (§3 “ExecState”). -/
inductive Outcome
  | pending
  | success
  | failure
deriving DecidableEq, Repr

/-- Modelled from the spec: the `ExecState` record used by `graph.rs`
(`crate::utils::execstate`, absent from the sources): outcome plus stored
output; the completion-permit semaphore is runtime state the claims do not
touch. -/
structure ExecState where
  outcome : Outcome
  output : Option Output
deriving DecidableEq, Repr

/-- Fresh pending state, `ExecState::new()` as called by `Graph::init`. -/
def ExecState.new : ExecState := { outcome := .pending, output := none }

/-- Store the output (`ExecState::set_output`). -/
def ExecState.set_output (s : ExecState) (o : Output) : ExecState :=
  { s with output := some o }

/-- Mark success (`ExecState::exe_success`). -/
def ExecState.exe_success (s : ExecState) : ExecState :=
  { s with outcome := .success }

/-- Mark failure (`ExecState::exe_fail`). -/
def ExecState.exe_fail (s : ExecState) : ExecState :=
  { s with outcome := .failure }

/-- Fetch the stored output (`ExecState::get_output`, `None` while pending). -/
def ExecState.get_output (s : ExecState) : Option Output := s.output

/-! ## The graph of `src/graph/graph.rs` -/

/-- Embedding of `GraphError` (`src/graph/error.rs`).  `ExecutionFailed` and
`PanicOccurred` carry a formatted message built from the node's name, id and
error text; the embedding keeps the id and the error text. -/
inductive GraphError
  | GraphLoopDetected
  | GraphNotActive
  | ExecutionFailed (id : Nat) (msg : String)
  | PanicOccurred (id : Nat)
  | MultipleErrors (errs : List GraphError)

/-- A node's action under a deterministic workload: `Node::run` either returns
a fixed `Output` or panics (the panic is caught by `catch_unwind` in
`Graph::run`). -/
inductive NodeBehavior
  | returns (o : Output)
  | panics
deriving DecidableEq, Repr

/-- Embedding of the data `Graph` keeps per node behind `Arc<Mutex<dyn Node>>`:
the conditional-node flag, the action (as a deterministic behavior), and the
node's two channel maps. -/
structure NodeRec where
  is_condition : Bool
  behavior : NodeBehavior
  out_channels : List (Nat × OutChannel)
  in_channels : List (Nat × InChannel)
deriving DecidableEq, Repr

/-- Embedding of `struct Graph` (`src/graph/graph.rs`).  `env` models the
`Arc<EnvVar>` key→Content map; the deterministic node behaviors ignore it. -/
structure Graph where
  nodes : List (Nat × NodeRec)
  execute_states : List (Nat × ExecState)
  node_count : Nat
  env : List (String × Content)
  is_active : Bool
  in_degree : List (Nat × Nat)
  blocks : List (List Nat)

/-- Embedding of `Graph::new`. -/
def Graph.new : Graph :=
  { nodes := [], execute_states := [], node_count := 0, env := [],
    is_active := true, in_degree := [], blocks := [] }

/-- Embedding of `Graph::reset`: fresh `execute_states`, fresh `env`, active
again.  Note that `nodes`, `node_count`, `in_degree` — and also `blocks` —
are left untouched. -/
def Graph.reset (g : Graph) : Graph :=
  { g with execute_states := [], env := [], is_active := true }

/-- Embedding of `Graph::add_node`: bump `node_count`, insert the node under
its id, initialize `in_degree[id] = 0`. -/
def Graph.add_node (g : Graph) (id : Nat) (node : NodeRec) : Graph :=
  { g with
    node_count := g.node_count + 1,
    nodes := aset id node g.nodes,
    in_degree := aset id 0 g.in_degree }

/-- Embedding of `Graph::remove_duplicates` (keep the first occurrence of each
element, as the `seen.insert` filter does). -/
def remove_duplicates_go (seen : List Nat) : List Nat → List Nat
  | [] => []
  | x :: rest =>
      if x ∈ seen then remove_duplicates_go seen rest
      else x :: remove_duplicates_go (x :: seen) rest

/-- Entry point of `Graph::remove_duplicates`. -/
def remove_duplicates (l : List Nat) : List Nat := remove_duplicates_go [] l

/-- Accumulator of the first loop of `Graph::add_edge`: the sender's evolving
`OutChannels` map, the graph's `in_degree` map, and `rx_map` (the receiver
ends created in this call, keyed by target id). -/
structure EdgeAcc where
  out_channels : List (Nat × OutChannel)
  in_degree : List (Nat × Nat)
  rx_map : List (Nat × InChannel)

/-- Embedding of `in_degree.entry(to).and_modify(|e| *e += 1).or_insert(0)`
in `Graph::add_edge` (note the `or_insert(0)`: a target id that is not yet an
`in_degree` key is inserted with degree 0, not 1). -/
def bump_in_degree (toId : Nat) (m : List (Nat × Nat)) : List (Nat × Nat) :=
  match alookup toId m with
  | some d => aset toId (d + 1) m
  | none => aset toId 0 m

/-- First loop of `Graph::add_edge`: for each target with no existing channel
from the sender, create an mpsc channel of capacity 32, store the sender end
in the sender's `OutChannels`, remember the receiver end in `rx_map`, and bump
the target's `in_degree`. -/
def add_edge_loop1 (acc : EdgeAcc) : List Nat → EdgeAcc
  | [] => acc
  | toId :: rest =>
      if (alookup toId acc.out_channels).isSome then add_edge_loop1 acc rest
      else
        add_edge_loop1
          { out_channels := aset toId OutChannel.Mpsc acc.out_channels,
            in_degree := bump_in_degree toId acc.in_degree,
            rx_map := aset toId (InChannel.Mpsc []) acc.rx_map }
          rest

/-- Second loop of `Graph::add_edge`: give each target that is a node and got
a fresh receiver in `rx_map` that receiver, stored in its `InChannels` under
the sender's id. -/
def add_edge_loop2 (u : Nat) (nodes : List (Nat × NodeRec))
    (rx_map : List (Nat × InChannel)) : List Nat → List (Nat × NodeRec)
  | [] => nodes
  | toId :: rest =>
      match alookup toId nodes with
      | none => add_edge_loop2 u nodes rx_map rest
      | some toRec =>
          match alookup toId rx_map with
          | none => add_edge_loop2 u nodes rx_map rest
          | some rx =>
              add_edge_loop2 u
                (aset toId { toRec with in_channels := aset u rx toRec.in_channels } nodes)
                (aremove toId rx_map) rest

/-- Embedding of `Graph::add_edge`.  The Rust code `unwrap`s the sender's
entry and would panic when `from_id` is not a node; every use below goes
through `wfBuild`, which guarantees the sender was added first, so the `none`
branch (returning `g` unchanged) is unreachable there. -/
def Graph.add_edge (g : Graph) (from_id : Nat) (all_to_ids : List Nat) : Graph :=
  let to_ids := remove_duplicates all_to_ids
  match alookup from_id g.nodes with
  | none => g
  | some fromRec =>
      let acc := add_edge_loop1
        { out_channels := fromRec.out_channels, in_degree := g.in_degree, rx_map := [] }
        to_ids
      let nodes1 := aset from_id { fromRec with out_channels := acc.out_channels } g.nodes
      let nodes2 := add_edge_loop2 from_id nodes1 acc.rx_map to_ids
      { g with nodes := nodes2, in_degree := acc.in_degree }

/-- Embedding of `Graph::init`: insert a fresh pending `ExecState` for every
node (overwriting any stale entry under the same key). -/
def Graph.init (g : Graph) : Graph :=
  { g with
    execute_states :=
      (akeys g.nodes).foldl (fun m id => aset id ExecState.new m) g.execute_states }

/-! ## `Graph::check_loop_and_partition`

Kahn's algorithm on the working copy of `in_degree`, with block partitioning
at conditional nodes.  The Rust `Vec` queue pushes and pops at the back; the
embedding keeps the stack top at the list head, so the seed list is reversed
and pushes cons.  The loop terminates because every iteration pops one element
and pushes only for in-degree entries that move from 1 to 0; the explicit
`fuel` below is large enough to finish (lemmas prove the queue is empty at the
result). -/

/-- State of the Kahn loop: the queue (top first), the working copy of
`in_degree`, `processed_count`, the accumulated `blocks` (starting from
`self.blocks`, which the loop appends to), and the current `block`. -/
structure KState where
  queue : List Nat
  in_degree : List (Nat × Nat)
  processed : Nat
  blocks : List (List Nat)
  block : List Nat

/-- Inner `for` of the Kahn loop: decrement the in-degree of each successor
of the popped node; a successor whose entry moves from 1 to 0 is pushed.  (The
`*degree -= 1` on an entry already at 0 would underflow in Rust; the in-degree
invariant proved below makes that case unreachable, and the embedding leaves
such an entry at 0 without pushing.) -/
def dec_successors (m : List (Nat × Nat)) (q : List Nat) : List Nat → List (Nat × Nat) × List Nat
  | [] => (m, q)
  | s :: rest =>
      match alookup s m with
      | none => dec_successors m q rest
      | some d => dec_successors (aset s (d - 1) m) (if d = 1 then s :: q else q) rest

/-- Successor ids of a node: the keys of its `OutChannels` map.  (The Rust
loop `unwrap`s the node; a queue id that is not a node key is unreachable
under the build invariants.) -/
def succ_of (nodes : List (Nat × NodeRec)) (u : Nat) : List Nat :=
  match alookup u nodes with
  | some r => akeys r.out_channels
  | none => []

/-- Conditional flag of a node id (false for a missing id, unreachable under
the build invariants). -/
def is_condition_of (nodes : List (Nat × NodeRec)) (u : Nat) : Bool :=
  match alookup u nodes with
  | some r => r.is_condition
  | none => false

/-- One iteration of the Kahn loop after popping `v` (the rest of the queue
being `qrest`): decrement the successors, add `v` to the current block, and
close the block when `v` is a conditional node. -/
def kahn_step (nodes : List (Nat × NodeRec)) (st : KState) (v : Nat)
    (qrest : List Nat) : KState :=
  let (deg', q') := dec_successors st.in_degree qrest (succ_of nodes v)
  let block' := st.block ++ [v]
  if is_condition_of nodes v then
    { queue := q', in_degree := deg', processed := st.processed + 1,
      blocks := st.blocks ++ [block'], block := [] }
  else
    { queue := q', in_degree := deg', processed := st.processed + 1,
      blocks := st.blocks, block := block' }

def kahn_loop (nodes : List (Nat × NodeRec)) : Nat → KState → KState
  | 0, st => st
  | fuel + 1, st =>
      match st.queue with
      | [] => st
      | v :: qrest => kahn_loop nodes fuel (kahn_step nodes st v qrest)

/-- Sum of the values of an in-degree map (used to size the fuel). -/
def deg_sum (m : List (Nat × Nat)) : Nat := (m.map Prod.snd).sum

/-- Fuel bound: strictly more than the loop can ever iterate. -/
def kahn_measure (st : KState) : Nat := st.queue.length + 2 * deg_sum st.in_degree

/-- Embedding of `Graph::check_loop_and_partition`: seed the queue with the
zero-in-degree nodes, run the Kahn loop on a copy of `in_degree`, push the
blocks onto `self.blocks` (appending — the field is never cleared first), and
report whether fewer nodes were processed than `node_count`. -/
def Graph.check_loop_and_partition (g : Graph) : Graph × Bool :=
  let seed := ((g.in_degree.filter (fun p => p.2 = 0)).map Prod.fst).reverse
  let st0 : KState :=
    { queue := seed, in_degree := g.in_degree, processed := 0,
      blocks := g.blocks, block := [] }
  let st := kahn_loop g.nodes (kahn_measure st0 + 1) st0
  let blocks' := if st.block = [] then st.blocks else st.blocks ++ [st.block]
  ({ g with blocks := blocks' }, decide (st.processed < g.node_count))

/-! ## `Graph::run` and `Graph::start`

`Graph::run` first spawns one tokio task per node, walking the blocks in
order, and only then awaits the chunks one by one: before awaiting a chunk it
checks the shared condition flag and aborts the chunk's handles when the flag
is false.  The deterministic schedule modelled here runs a chunk's tasks (in
block order) when the chunk is awaited and runs nothing of an aborted chunk;
`run_trace` below records the spawn/await/abort order of the code itself. -/

/-- Result of the settled task bodies: the (possibly channel-closed) nodes,
the final `execute_states`, the condition flag, and the accumulated error
list. -/
structure RunResult where
  nodes : List (Nat × NodeRec)
  states : List (Nat × ExecState)
  flag : Bool
  errors : List GraphError

/-- Body of one spawned task in `Graph::run` for node `id`, under the
deterministic workload: on a panic close all the node's channels and push
`PanicOccurred`; on an `Err` output record failure and push
`ExecutionFailed`; otherwise record success, clearing the condition flag when
a conditional node returned `ConditionResult(false)`.  (Missing map entries
would be panics in Rust and are unreachable via `start`.) -/
def run_task (r : RunResult) (id : Nat) : RunResult :=
  match alookup id r.nodes with
  | none => r
  | some nd =>
      match nd.behavior with
      | .panics =>
          { r with
            nodes := aset id { nd with in_channels := [], out_channels := [] } r.nodes,
            errors := r.errors ++ [.PanicOccurred id] }
      | .returns out =>
          match alookup id r.states with
          | none => r
          | some st =>
              if out.is_err then
                { r with
                  states := aset id ((st.set_output out).exe_fail) r.states,
                  errors := r.errors ++ [.ExecutionFailed id ((out.get_err).getD "")] }
              else
                { r with
                  states := aset id ((st.set_output out).exe_success) r.states,
                  flag := if out.conditional_result = some false then false else r.flag }

/-- Run all tasks of one awaited chunk, in block order. -/
def run_chunk (r : RunResult) (block : List Nat) : RunResult :=
  block.foldl run_task r

/-- Await the chunks in order: a chunk whose check sees a false condition flag
is aborted (its tasks never run), otherwise its tasks settle. -/
def run_blocks (r : RunResult) : List (List Nat) → RunResult
  | [] => r
  | b :: rest =>
      if r.flag = false then run_blocks r rest
      else run_blocks (run_chunk r b) rest

/-- Error aggregation at the end of `Graph::run`: no error → `Ok`, a single
error → that error, otherwise `MultipleErrors`. -/
def aggregate_errors : List GraphError → Option GraphError
  | [] => none
  | [e] => some e
  | es => some (.MultipleErrors es)

/-- Embedding of `Graph::run`: settle all chunks, mark the graph inactive,
aggregate the error list.  `none` in the second component is `Ok(())`. -/
def Graph.run (g : Graph) : Graph × Option GraphError :=
  let r := run_blocks
    { nodes := g.nodes, states := g.execute_states, flag := true, errors := [] }
    g.blocks
  ({ g with nodes := r.nodes, execute_states := r.states, is_active := false },
   aggregate_errors r.errors)

/-- Embedding of `Graph::start`: `init`, cycle check (which also partitions
into blocks), active check, then `run`. -/
def Graph.start (g : Graph) : Graph × Option GraphError :=
  let g1 := g.init
  let (g2, is_loop) := g1.check_loop_and_partition
  if is_loop then (g2, some .GraphLoopDetected)
  else if g2.is_active = false then (g2, some .GraphNotActive)
  else g2.run

/-- Events of `Graph::run` in program order: `task::spawn` of a node's task,
awaiting a chunk (`join_all`), and aborting a chunk's handles. -/
inductive RunEvent
  | spawn (id : Nat)
  | awaitChunk (idx : Nat)
  | abortChunk (idx : Nat)
deriving DecidableEq, Repr

/-- Await-or-abort decision for each chunk, in order: `true` when the chunk is
awaited, `false` when its handles are aborted. -/
def chunk_decisions (r : RunResult) : List (List Nat) → List Bool
  | [] => []
  | b :: rest =>
      if r.flag = false then false :: chunk_decisions r rest
      else true :: chunk_decisions (run_chunk r b) rest

/-- The event order of `Graph::run`: the first `for` loop spawns every task of
every block before the await loop starts, and only then does the await loop
emit one await-or-abort decision per chunk. -/
def Graph.run_trace (g : Graph) : List RunEvent :=
  (g.blocks.flatten.map RunEvent.spawn) ++
  ((chunk_decisions
      { nodes := g.nodes, states := g.execute_states, flag := true, errors := [] }
      g.blocks).enum.map
    (fun p => if p.2 then RunEvent.awaitChunk p.1 else RunEvent.abortChunk p.1))

/-! ## Building a graph with `add_node` / `add_edge` -/

/-- One construction step: `Graph::add_node` with a fresh node (the user's
node arrives with empty channel maps) or `Graph::add_edge`. -/
inductive BuildOp
  | node (id : Nat) (is_condition : Bool) (behavior : NodeBehavior)
  | edge (from_id : Nat) (to_ids : List Nat)
deriving DecidableEq, Repr

/-- Apply one construction step. -/
def build_step (g : Graph) : BuildOp → Graph
  | .node id c b =>
      g.add_node id { is_condition := c, behavior := b, out_channels := [], in_channels := [] }
  | .edge u tos => g.add_edge u tos

/-- Build a graph from a construction sequence, starting from `Graph::new`. -/
def build (ops : List BuildOp) : Graph := ops.foldl build_step Graph.new

/-- Validity of a construction sequence: node ids are fresh (per the NodeId
invariant of §3), and both endpoints of every edge were previously added as
nodes (the hypothesis of the claims). -/
def wfBuild (seen : List Nat) : List BuildOp → Bool
  | [] => true
  | .node id _ _ :: rest => !(seen.contains id) && wfBuild (id :: seen) rest
  | .edge u tos :: rest => seen.contains u && tos.all seen.contains && wfBuild seen rest

/-- The error list of the run that `Graph::start` performs (after `init` and
the loop check/partition), used to state the error-aggregation claim. -/
def Graph.run_errors (g : Graph) : List GraphError :=
  let g2 := (g.init.check_loop_and_partition).1
  (run_blocks
    { nodes := g2.nodes, states := g2.execute_states, flag := true, errors := [] }
    g2.blocks).errors

/-- Edge relation of a built graph: `u → v` when `v` is a key of `u`'s
`OutChannels` map (how `check_loop_and_partition` itself reads edges). -/
def EdgeRel (nodes : List (Nat × NodeRec)) (u v : Nat) : Prop :=
  v ∈ succ_of nodes u

/-- A directed cycle among the nodes: some node reaches itself through one or
more edges. -/
def HasCycle (nodes : List (Nat × NodeRec)) : Prop :=
  ∃ v, Relation.TransGen (EdgeRel nodes) v v

/-! ## The configuration parser (§4.7)

The parser flavor the spec describes — `cmd` plus caller-supplied
`specific_actions` — is declared in `src/yaml/mod.rs` (`mod yaml_parser`)
together with its `YamlTaskError` kinds, but the `yaml_parser.rs` file itself
is absent from the sources, so `parse_one`/`parse_tasks` are modelled from the
spec. -/

/-- Embedding of `YamlTaskError` (`src/yaml/mod.rs`). -/
inductive YamlTaskError
  | StartWordError
  | NoNameAttr (key : String)
  | NotFoundPrecursor (name : String)
  | NoScriptAttr (name : String)
deriving DecidableEq, Repr

/-- One task entry of the configuration document: local key, optional `name`,
`after` list (defaults to empty), optional `cmd`. -/
structure TaskEntry where
  key : String
  name : Option String
  after : List String
  cmd : Option String
deriving DecidableEq, Repr

/-- The action attached to a parsed task: a caller-supplied specific action
(identified by an opaque tag) or the default command-executing action
wrapping `cmd`. -/
inductive TaskAction
  | user (tag : Nat)
  | commandAction (cmd : String)
deriving DecidableEq, Repr

/-- A task produced by the parser: minted id, textual key, textual
predecessor keys, name, action, and (after the second pass) resolved
predecessor ids. -/
structure YamlTask where
  id : Nat
  key : String
  str_precursors : List String
  name : String
  action : TaskAction
  precursors : List Nat
deriving DecidableEq, Repr

/-- Modelled from the spec: `YamlParser::parse_one` (the file
`src/yaml/yaml_parser.rs` is missing from the sources).  Per §4.7: `name` is
required (`NoNameAttr` otherwise); `after` defaults to empty; if
`specific_actions[key]` was supplied it is used, otherwise `cmd` must be
present and is wrapped in the default command-executing action
(`NoScriptAttr` otherwise). -/
def parse_one (specific_actions : List (String × Nat)) (id : Nat)
    (entry : TaskEntry) : Except YamlTaskError YamlTask :=
  match entry.name with
  | none => .error (.NoNameAttr entry.key)
  | some nm =>
      match alookup entry.key specific_actions with
      | some a => .ok ⟨id, entry.key, entry.after, nm, .user a, []⟩
      | none =>
          match entry.cmd with
          | some c => .ok ⟨id, entry.key, entry.after, nm, .commandAction c, []⟩
          | none => .error (.NoScriptAttr nm)

/-- Modelled from the spec: the first pass of `parse_tasks` — parse each
entry in order, minting sequential ids and building the key→id map (a later
duplicate key overwrites, as `HashMap::insert` does). -/
def parse_first_pass (specific_actions : List (String × Nat)) :
    Nat → List (String × Nat) → List YamlTask → List TaskEntry →
    Except YamlTaskError (List YamlTask × List (String × Nat))
  | _, keyMap, acc, [] => .ok (acc.reverse, keyMap)
  | id0, keyMap, acc, e :: rest =>
      match parse_one specific_actions id0 e with
      | .error err => .error err
      | .ok t =>
          parse_first_pass specific_actions (id0 + 1) (aset e.key t.id keyMap)
            (t :: acc) rest

/-- Modelled from the spec: the second pass — resolve each textual
predecessor key through the key→id map, failing with `NotFoundPrecursor` on
an unknown key. -/
def resolve_precursors (keyMap : List (String × Nat)) (t : YamlTask) :
    List String → Except YamlTaskError YamlTask
  | [] => .ok t
  | p :: rest =>
      match alookup p keyMap with
      | none => .error (.NotFoundPrecursor t.name)
      | some pid =>
          match resolve_precursors keyMap t rest with
          | .error err => .error err
          | .ok t' => .ok { t' with precursors := pid :: t'.precursors }

/-- Second pass over the whole task list. -/
def resolve_all (keyMap : List (String × Nat)) :
    List YamlTask → Except YamlTaskError (List YamlTask)
  | [] => .ok []
  | t :: rest =>
      match resolve_precursors keyMap t t.str_precursors with
      | .error err => .error err
      | .ok t' =>
          match resolve_all keyMap rest with
          | .error err => .error err
          | .ok ts => .ok (t' :: ts)

/-- Modelled from the spec: `parse_tasks`.  `doc = none` models a document
that does not open with the sentinel root key (`StartWordError`); otherwise
the two passes run. -/
def parse_tasks (specific_actions : List (String × Nat))
    (doc : Option (List TaskEntry)) : Except YamlTaskError (List YamlTask) :=
  match doc with
  | none => .error .StartWordError
  | some entries =>
      match parse_first_pass specific_actions 0 [] [] entries with
      | .error err => .error err
      | .ok (ts, keyMap) => resolve_all keyMap ts

/-! ## Concrete build sequences used by the evaluation theorems -/

/-- A conditional node 0 whose condition is false, feeding a plain node 1:
the conditional short-circuit scenario (spec §8 scenario 5). -/
def opsCond : List BuildOp :=
  [.node 0 true (.returns (.ConditionResult false)),
   .node 1 false (.returns (.Out none)),
   .edge 0 [1]]

/-- A single node whose action returns the `Err` variant. -/
def opsErr : List BuildOp := [.node 0 false (.returns (.Err "boom"))]

/-- A 2-cycle: node 0 → node 1 → node 0. -/
def opsCycle : List BuildOp :=
  [.node 0 false (.returns (.Out none)),
   .node 1 false (.returns (.Out none)),
   .edge 0 [1], .edge 1 [0]]

/-- A fan-out: node 0 with the two targets 1 and 2 declared in one
`add_edge` call. -/
def opsFan : List BuildOp :=
  [.node 0 false (.returns (.Out none)),
   .node 1 false (.returns (.Out none)),
   .node 2 false (.returns (.Out none)),
   .edge 0 [1, 2]]

/-- A linear pair: node 0 → node 1, both plain and succeeding. -/
def opsPair : List BuildOp :=
  [.node 0 false (.returns (.Out (some 7))),
   .node 1 false (.returns (.Out none)),
   .edge 0 [1]]

/-- The conditional graph right before `Graph::run`: after `init` and the
block partitioning done by `check_loop_and_partition`. -/
def gCondPartitioned : Graph := ((build opsCond).init.check_loop_and_partition).1

/-- The state of the single-`Err`-node graph after its first completed run. -/
def gErrFirst : Graph := ((build opsErr).start).1

/-- State-shape invariant carried through the run loop: every recorded state
is still fresh, or a failure matched by a pushed error, or a success whose
stored output is not the `Err` variant. -/
def StateInv (r : RunResult) : Prop :=
  ∀ id st, alookup id r.states = some st →
    st = ExecState.new ∨
    (st.outcome = .failure ∧ r.errors ≠ []) ∨
    (st.outcome = .success ∧ ∃ o, st.output = some o ∧ o.is_err = false)

/-- The run result computed inside `Graph::start` after `init` and the
loop check/partition. -/
def start_run_result (g : Graph) : RunResult :=
  let g2 := (g.init.check_loop_and_partition).1
  run_blocks
    { nodes := g2.nodes, states := g2.execute_states, flag := true, errors := [] }
    g2.blocks

/-- Number of unvisited predecessors of `v`: the nodes `u` not in `vis` whose
`OutChannels` map has the key `v`.  This is the quantity the working copy of
`in_degree` tracks during `check_loop_and_partition`. -/
def updeg (nodes : List (Nat × NodeRec)) (vis : List Nat) (v : Nat) : Nat :=
  ((akeys nodes).filter (fun u => decide (u ∉ vis ∧ v ∈ succ_of nodes u))).length

/-- Invariant of the Kahn loop, relating the loop state to the list `vis` of
already-processed nodes in processing order: processed nodes and queued nodes
are distinct graph nodes, the working `in_degree` entry of every node counts
its unvisited predecessors, nodes without unvisited predecessors have been
processed or queued, and `vis` lists every node after its predecessors. -/
structure KInv (nodes : List (Nat × NodeRec)) (st : KState) (vis : List Nat) : Prop where
  visN : ∀ v ∈ vis, v ∈ akeys nodes
  visND : vis.Nodup
  visZero : ∀ v ∈ vis, updeg nodes vis v = 0
  queueN : ∀ v ∈ st.queue, v ∈ akeys nodes
  queueND : st.queue.Nodup
  queueNotVis : ∀ v ∈ st.queue, v ∉ vis
  queueZero : ∀ v ∈ st.queue, updeg nodes vis v = 0
  degKeys : akeys st.in_degree = akeys nodes
  degVal : ∀ v ∈ akeys nodes, alookup v st.in_degree = some (updeg nodes vis v)
  zeroCov : ∀ v ∈ akeys nodes, updeg nodes vis v = 0 → v ∈ vis ∨ v ∈ st.queue
  procLen : st.processed = vis.length
  visTopo : ∀ i u w, vis[i]? = some w → EdgeRel nodes u w → u ∈ vis.take i

/-- Invariant of graphs produced by a well-formed `add_node`/`add_edge`
construction sequence: distinct node keys, `in_degree` keyed exactly by the
nodes with the true in-degree as value, `node_count` equal to the number of
nodes, successor lists without duplicates pointing at nodes, and the
per-run fields still fresh. -/
structure BuildInv (g : Graph) : Prop where
  ndKeys : (akeys g.nodes).Nodup
  degKeysEq : akeys g.in_degree = akeys g.nodes
  countEq : g.node_count = (akeys g.nodes).length
  succOK : ∀ u r, alookup u g.nodes = some r →
    (akeys r.out_channels).Nodup ∧ ∀ w ∈ akeys r.out_channels, w ∈ akeys g.nodes
  degInit : ∀ v ∈ akeys g.nodes, alookup v g.in_degree = some (updeg g.nodes [] v)
  activeTrue : g.is_active = true
  blocksNil : g.blocks = []

/-- The initial Kahn state seeded by `Graph::check_loop_and_partition`: the
zero-in-degree nodes queued (reversed, matching the stack embedding of the
`Vec` queue), the working copy of `in_degree`, nothing processed yet. -/
def kahnInit (g : Graph) : KState :=
  { queue := ((g.in_degree.filter (fun p => p.2 = 0)).map Prod.fst).reverse,
    in_degree := g.in_degree, processed := 0, blocks := g.blocks, block := [] }

section AListLemmas

variable {κ α : Type} [DecidableEq κ]

theorem alookup_eq_none_iff (k : κ) (m : List (κ × α)) :
    alookup k m = none ↔ k ∉ akeys m := by
  induction m with
  | nil => simp [alookup, akeys]
  | cons p rest ih =>
    obtain ⟨k', v⟩ := p
    by_cases h : k' = k
    · subst h
      simp [alookup, akeys]
    · simp only [alookup, if_neg h, akeys, List.mem_cons, ih]
      constructor
      · intro hk hor
        rcases hor with h1 | h1
        · exact h h1.symm
        · exact hk h1
      · intro hk h1
        exact hk (Or.inr h1)

theorem mem_akeys_of_alookup {k : κ} {m : List (κ × α)} {v : α}
    (h : alookup k m = some v) : k ∈ akeys m := by
  by_contra hk
  rw [← alookup_eq_none_iff] at hk
  rw [hk] at h
  exact Option.noConfusion h

theorem alookup_isSome_iff (k : κ) (m : List (κ × α)) :
    (alookup k m).isSome ↔ k ∈ akeys m := by
  rcases h : alookup k m with _ | v
  · simp [Option.isSome, (alookup_eq_none_iff k m).mp h]
  · simp [Option.isSome, mem_akeys_of_alookup h]

theorem alookup_aset_self (k : κ) (v : α) (m : List (κ × α)) :
    alookup k (aset k v m) = some v := by
  induction m with
  | nil => simp [aset, alookup]
  | cons p rest ih =>
    obtain ⟨k', v'⟩ := p
    by_cases h : k' = k <;> simp [aset, alookup, h, ih]

theorem alookup_aset_ne {k k' : κ} (h : k ≠ k') (v : α) (m : List (κ × α)) :
    alookup k' (aset k v m) = alookup k' m := by
  induction m with
  | nil => simp [aset, alookup, h]
  | cons p rest ih =>
    obtain ⟨k₀, v₀⟩ := p
    by_cases h0 : k₀ = k
    · subst h0
      simp [aset, alookup, h]
    · simp only [aset, if_neg h0]
      by_cases h1 : k₀ = k' <;> simp [alookup, h1, ih]

theorem akeys_aset_of_mem {k : κ} {m : List (κ × α)} (hk : k ∈ akeys m) (v : α) :
    akeys (aset k v m) = akeys m := by
  induction m with
  | nil => simp [akeys] at hk
  | cons p rest ih =>
    obtain ⟨k₀, v₀⟩ := p
    by_cases h0 : k₀ = k
    · simp [aset, h0, akeys]
    · have hk' : k ∈ akeys rest := by
        simp [akeys] at hk
        rcases hk with h | h
        · exact absurd h.symm h0
        · exact h
      simp [aset, h0, akeys, ih hk']

theorem akeys_aset_of_not_mem {k : κ} {m : List (κ × α)} (hk : k ∉ akeys m) (v : α) :
    akeys (aset k v m) = akeys m ++ [k] := by
  induction m with
  | nil => simp [aset, akeys]
  | cons p rest ih =>
    obtain ⟨k₀, v₀⟩ := p
    have hne : k₀ ≠ k := by
      intro h
      exact hk (by simp [akeys, h])
    have hk' : k ∉ akeys rest := by
      intro h
      exact hk (by simp [akeys, h])
    simp [aset, hne, akeys, ih hk']

theorem aset_eq_of_alookup {k : κ} {v : α} {m : List (κ × α)}
    (h : alookup k m = some v) : aset k v m = m := by
  induction m with
  | nil => simp [alookup] at h
  | cons p rest ih =>
    obtain ⟨k₀, v₀⟩ := p
    by_cases h0 : k₀ = k
    · subst h0
      simp [alookup] at h
      simp [aset, h]
    · simp [alookup, h0] at h
      simp [aset, h0, ih h]

theorem nodup_akeys_aset {k : κ} {m : List (κ × α)} (h : (akeys m).Nodup) (v : α) :
    (akeys (aset k v m)).Nodup := by
  by_cases hk : k ∈ akeys m
  · rwa [akeys_aset_of_mem hk]
  · rw [akeys_aset_of_not_mem hk]
    simpa [List.nodup_append] using ⟨h, fun h' => (hk h').elim⟩

theorem alookup_aremove_self {k : κ} {m : List (κ × α)} (h : (akeys m).Nodup) :
    alookup k (aremove k m) = none := by
  induction m with
  | nil => simp [aremove, alookup]
  | cons p rest ih =>
    obtain ⟨k₀, v₀⟩ := p
    simp only [akeys, List.map_cons, List.nodup_cons] at h
    by_cases h0 : k₀ = k
    · subst h0
      rw [alookup_eq_none_iff]
      simpa [aremove, akeys] using h.1
    · simp [aremove, h0, alookup, ih h.2]

theorem alookup_aremove_ne {k k' : κ} (h : k ≠ k') (m : List (κ × α)) :
    alookup k' (aremove k m) = alookup k' m := by
  induction m with
  | nil => simp [aremove]
  | cons p rest ih =>
    obtain ⟨k₀, v₀⟩ := p
    by_cases h0 : k₀ = k
    · subst h0
      simp [aremove, alookup, h]
    · simp only [aremove, if_neg h0, alookup]
      by_cases h1 : k₀ = k' <;> simp [h1, ih]

theorem akeys_aremove_sublist (k : κ) (m : List (κ × α)) :
    (akeys (aremove k m)).Sublist (akeys m) := by
  induction m with
  | nil => simp [aremove, akeys]
  | cons p rest ih =>
    obtain ⟨k₀, v₀⟩ := p
    by_cases h0 : k₀ = k
    · simp only [aremove, if_pos h0, akeys]
      exact (List.sublist_cons_self k₀ (akeys rest)).trans (by rfl) |>.trans (by rfl)
    · simp only [aremove, if_neg h0, akeys]
      exact ih.cons₂ k₀

theorem akeys_aremove_nodup {k : κ} {m : List (κ × α)} (h : (akeys m).Nodup) :
    (akeys (aremove k m)).Nodup := (akeys_aremove_sublist k m).nodup h

end AListLemmas

/-! ## Lemmas about the Kahn pass of `check_loop_and_partition` -/

theorem akeys_eq_map {κ α : Type} (m : List (κ × α)) : akeys m = m.map Prod.fst := by
  induction m with
  | nil => rfl
  | cons p rest ih =>
    obtain ⟨k, v⟩ := p
    simp [akeys, ih]

theorem mem_of_alookup {κ α : Type} [DecidableEq κ] {k : κ} {v : α}
    {m : List (κ × α)} (h : alookup k m = some v) : (k, v) ∈ m := by
  induction m with
  | nil => simp [alookup] at h
  | cons p rest ih =>
    obtain ⟨k₀, v₀⟩ := p
    by_cases h0 : k₀ = k
    · subst h0
      simp [alookup] at h
      simp [h]
    · simp [alookup, h0] at h
      simp [ih h]

theorem alookup_of_mem_nodup {κ α : Type} [DecidableEq κ] {k : κ} {v : α}
    {m : List (κ × α)} (hnd : (akeys m).Nodup) (h : (k, v) ∈ m) :
    alookup k m = some v := by
  induction m with
  | nil => simp at h
  | cons p rest ih =>
    obtain ⟨k₀, v₀⟩ := p
    simp only [akeys, List.nodup_cons] at hnd
    rcases List.mem_cons.mp h with h1 | h1
    · injection h1 with hk hv
      subst hk
      subst hv
      simp [alookup]
    · have hne : k₀ ≠ k := by
        intro hh
        subst hh
        refine hnd.1 ?_
        rw [akeys_eq_map]
        exact List.mem_map.mpr ⟨(k₀, v), h1, rfl⟩
      simp [alookup, hne, ih hnd.2 h1]

theorem edge_mem_left {nodes : List (Nat × NodeRec)} {u v : Nat}
    (h : EdgeRel nodes u v) : u ∈ akeys nodes := by
  unfold EdgeRel succ_of at h
  cases hu : alookup u nodes with
  | none => rw [hu] at h; simp at h
  | some r => exact mem_akeys_of_alookup hu

theorem updeg_eq_zero_iff (nodes : List (Nat × NodeRec)) (vis : List Nat) (v : Nat) :
    updeg nodes vis v = 0 ↔ ∀ u, EdgeRel nodes u v → u ∈ vis := by
  unfold updeg
  rw [List.length_eq_zero, List.filter_eq_nil_iff]
  constructor
  · intro h u hu
    by_contra huv
    have hmem := edge_mem_left hu
    have := h u hmem
    simp only [decide_eq_true_eq] at this
    exact this ⟨huv, hu⟩
  · intro h u _
    simp only [decide_eq_true_eq]
    intro hc
    exact hc.1 (h u hc.2)

theorem updeg_pos_exists {nodes : List (Nat × NodeRec)} {vis : List Nat} {v : Nat}
    (h : updeg nodes vis v ≠ 0) : ∃ u, u ∉ vis ∧ EdgeRel nodes u v := by
  by_contra hc
  push_neg at hc
  refine h ((updeg_eq_zero_iff nodes vis v).mpr ?_)
  intro u hu
  by_contra huv
  exact (hc u huv) hu

theorem filter_length_flip {l : List Nat} (hl : l.Nodup) (p q : Nat → Bool) (v : Nat)
    (hv : v ∈ l) (hqv : q v = true) (hpv : p v = false)
    (hagree : ∀ u ∈ l, u ≠ v → p u = q u) :
    (l.filter q).length = (l.filter p).length + 1 := by
  induction l with
  | nil => simp at hv
  | cons x rest ih =>
    rw [List.nodup_cons] at hl
    rcases List.mem_cons.mp hv with h1 | h1
    · subst h1
      have hcongr : rest.filter p = rest.filter q := by
        apply List.filter_congr
        intro u hu
        exact hagree u (List.mem_cons_of_mem _ hu) (fun hh => hl.1 (hh ▸ hu))
      simp [List.filter_cons, hqv, hpv, hcongr]
    · have hxv : x ≠ v := fun hh => hl.1 (hh ▸ h1)
      have hx : p x = q x := hagree x (List.mem_cons_self _ _) hxv
      have ihh := ih hl.2 h1 (fun u hu hne => hagree u (List.mem_cons_of_mem _ hu) hne)
      cases hq : q x
      · have hp : p x = false := by rw [hx, hq]
        simp [List.filter_cons, hq, hp, ihh]
      · have hp : p x = true := by rw [hx, hq]
        simp [List.filter_cons, hq, hp, ihh]

theorem updeg_append_edge {nodes : List (Nat × NodeRec)} {vis : List Nat} {v w : Nat}
    (hN : (akeys nodes).Nodup) (hvis : v ∉ vis) (he : EdgeRel nodes v w) :
    updeg nodes (vis ++ [v]) w + 1 = updeg nodes vis w := by
  unfold updeg
  have hv : v ∈ akeys nodes := edge_mem_left he
  refine (filter_length_flip hN _ _ v hv ?_ ?_ ?_).symm
  · simp only [decide_eq_true_eq]
    exact ⟨hvis, he⟩
  · simp
  · intro u _ hne
    simp only [decide_eq_decide, List.mem_append, List.mem_singleton]
    constructor
    · intro hc
      exact ⟨fun hh => hc.1 (Or.inl hh), hc.2⟩
    · intro hc
      refine ⟨fun hh => ?_, hc.2⟩
      rcases hh with hh | hh
      · exact hc.1 hh
      · exact hne hh

theorem updeg_append_not_edge {nodes : List (Nat × NodeRec)} {vis : List Nat} {v w : Nat}
    (he : ¬EdgeRel nodes v w) :
    updeg nodes (vis ++ [v]) w = updeg nodes vis w := by
  unfold updeg
  congr 1
  apply List.filter_congr
  intro u _
  simp only [decide_eq_decide, List.mem_append, List.mem_singleton]
  constructor
  · intro hc
    exact ⟨fun hh => hc.1 (Or.inl hh), hc.2⟩
  · intro hc
    refine ⟨fun hh => ?_, hc.2⟩
    rcases hh with hh | hh
    · exact hc.1 hh
    · subst hh
      exact he hc.2

theorem updeg_append_zero {nodes : List (Nat × NodeRec)} {vis l : List Nat} {w : Nat}
    (h : updeg nodes vis w = 0) : updeg nodes (vis ++ l) w = 0 := by
  unfold updeg at h ⊢
  rw [List.length_eq_zero, List.filter_eq_nil_iff] at h ⊢
  intro u hu
  have := h u hu
  simp only [decide_eq_true_eq] at this ⊢
  intro hc
  exact this ⟨fun hh => hc.1 (List.mem_append_left _ hh), hc.2⟩

theorem deg_sum_cons (k v : Nat) (rest : List (Nat × Nat)) :
    deg_sum ((k, v) :: rest) = v + deg_sum rest := by
  simp [deg_sum]

theorem deg_sum_aset {k d : Nat} {m : List (Nat × Nat)} (v : Nat)
    (h : alookup k m = some d) : deg_sum (aset k v m) + d = deg_sum m + v := by
  induction m with
  | nil => simp [alookup] at h
  | cons p rest ih =>
    obtain ⟨k₀, v₀⟩ := p
    by_cases h0 : k₀ = k
    · subst h0
      simp only [alookup, if_pos rfl] at h
      injection h with h
      subst h
      have : aset k₀ v ((k₀, v₀) :: rest) = (k₀, v) :: rest := by simp [aset]
      rw [this, deg_sum_cons, deg_sum_cons]
      omega
    · simp only [alookup, if_neg h0] at h
      simp only [aset, if_neg h0, deg_sum_cons]
      have := ih h
      omega

theorem dec_successors_cons (m : List (Nat × Nat)) (q : List Nat) (s : Nat)
    (rest : List Nat) :
    dec_successors m q (s :: rest) =
      match alookup s m with
      | none => dec_successors m q rest
      | some d => dec_successors (aset s (d - 1) m) (if d = 1 then s :: q else q) rest := rfl

theorem dec_successors_spec (ss : List Nat) (m : List (Nat × Nat)) (q : List Nat)
    (hnd : ss.Nodup) (hmem : ∀ s ∈ ss, s ∈ akeys m) :
    (∀ w, alookup w (dec_successors m q ss).1 =
      if w ∈ ss then (alookup w m).map (fun d => d - 1) else alookup w m) ∧
    (dec_successors m q ss).2 =
      (ss.filter (fun s => decide (alookup s m = some 1))).reverse ++ q ∧
    akeys (dec_successors m q ss).1 = akeys m := by
  induction ss generalizing m q with
  | nil =>
    refine ⟨fun w => by simp [dec_successors], by simp [dec_successors], rfl⟩
  | cons s rest ih =>
    have hs : s ∈ akeys m := hmem s (List.mem_cons_self _ _)
    obtain ⟨d, hd⟩ : ∃ d, alookup s m = some d := by
      cases h : alookup s m with
      | none => exact absurd hs ((alookup_eq_none_iff s m).mp h)
      | some d => exact ⟨d, rfl⟩
    rw [List.nodup_cons] at hnd
    have hstep : dec_successors m q (s :: rest)
        = dec_successors (aset s (d - 1) m) (if d = 1 then s :: q else q) rest := by
      rw [dec_successors_cons, hd]
    have hkeys' : akeys (aset s (d - 1) m) = akeys m := akeys_aset_of_mem hs _
    have hmem' : ∀ t ∈ rest, t ∈ akeys (aset s (d - 1) m) := by
      intro t ht
      rw [hkeys']
      exact hmem t (List.mem_cons_of_mem _ ht)
    obtain ⟨ih1, ih2, ih3⟩ := ih (aset s (d - 1) m) (if d = 1 then s :: q else q) hnd.2 hmem'
    refine ⟨?_, ?_, ?_⟩
    · intro w
      rw [hstep, ih1 w]
      by_cases hw : w ∈ s :: rest
      · rcases List.mem_cons.mp hw with hws | hwr
        · subst hws
          have hwr : w ∉ rest := hnd.1
          rw [if_neg hwr, if_pos hw, alookup_aset_self, hd]
          rfl
        · have hws : w ≠ s := fun hh => hnd.1 (hh ▸ hwr)
          have hsw : s ≠ w := fun hh => hws hh.symm
          rw [if_pos hwr, if_pos hw, alookup_aset_ne hsw]
      · have hwr : w ∉ rest := fun hh => hw (List.mem_cons_of_mem _ hh)
        have hws : w ≠ s := fun hh => hw (hh ▸ List.mem_cons_self _ _)
        have hsw : s ≠ w := fun hh => hws hh.symm
        rw [if_neg hwr, if_neg hw, alookup_aset_ne hsw]
    · rw [hstep, ih2]
      have hcongr : rest.filter (fun t => decide (alookup t (aset s (d - 1) m) = some 1))
          = rest.filter (fun t => decide (alookup t m = some 1)) := by
        apply List.filter_congr
        intro t ht
        have hst : s ≠ t := fun hh => hnd.1 (hh ▸ ht)
        rw [alookup_aset_ne hst]
      rw [hcongr]
      by_cases hd1 : d = 1
      · subst hd1
        have hps : decide (alookup s m = some 1) = true := by simp [hd]
        simp [List.filter_cons, hps]
      · have hps : decide (alookup s m = some 1) = false := by simp [hd, hd1]
        simp [List.filter_cons, hps, hd1]
    · rw [hstep, ih3, hkeys']

theorem dec_successors_measure (ss : List Nat) (m : List (Nat × Nat)) (q : List Nat) :
    (dec_successors m q ss).2.length + 2 * deg_sum (dec_successors m q ss).1 ≤
      q.length + 2 * deg_sum m := by
  induction ss generalizing m q with
  | nil => simp [dec_successors]
  | cons s rest ih =>
    cases hd : alookup s m with
    | none =>
      have hstep : dec_successors m q (s :: rest) = dec_successors m q rest := by
        rw [dec_successors_cons, hd]
      rw [hstep]
      exact ih m q
    | some d =>
      have hstep : dec_successors m q (s :: rest)
          = dec_successors (aset s (d - 1) m) (if d = 1 then s :: q else q) rest := by
        rw [dec_successors_cons, hd]
      rw [hstep]
      have hsum := deg_sum_aset (d - 1) hd
      by_cases hd1 : d = 1
      · rw [if_pos hd1]
        have hrec := ih (aset s (d - 1) m) (s :: q)
        simp only [List.length_cons] at hrec
        omega
      · rw [if_neg hd1]
        have hrec := ih (aset s (d - 1) m) q
        omega

theorem kahn_measure_step (nodes : List (Nat × NodeRec)) (st : KState) (v : Nat)
    (qrest : List Nat) :
    kahn_measure (kahn_step nodes st v qrest) =
      (dec_successors st.in_degree qrest (succ_of nodes v)).2.length +
        2 * deg_sum (dec_successors st.in_degree qrest (succ_of nodes v)).1 := by
  by_cases hc : is_condition_of nodes v <;> simp [kahn_step, kahn_measure, hc]

theorem kahn_step_queue (nodes : List (Nat × NodeRec)) (st : KState) (v : Nat)
    (qrest : List Nat) :
    (kahn_step nodes st v qrest).queue =
      (dec_successors st.in_degree qrest (succ_of nodes v)).2 := by
  by_cases hc : is_condition_of nodes v <;> simp [kahn_step, hc]

theorem kahn_step_in_degree (nodes : List (Nat × NodeRec)) (st : KState) (v : Nat)
    (qrest : List Nat) :
    (kahn_step nodes st v qrest).in_degree =
      (dec_successors st.in_degree qrest (succ_of nodes v)).1 := by
  by_cases hc : is_condition_of nodes v <;> simp [kahn_step, hc]

theorem kahn_step_processed (nodes : List (Nat × NodeRec)) (st : KState) (v : Nat)
    (qrest : List Nat) :
    (kahn_step nodes st v qrest).processed = st.processed + 1 := by
  by_cases hc : is_condition_of nodes v <;> simp [kahn_step, hc]

theorem kahn_loop_succ (nodes : List (Nat × NodeRec)) (fuel : Nat) (st : KState) :
    kahn_loop nodes (fuel + 1) st =
      match st.queue with
      | [] => st
      | v :: qrest => kahn_loop nodes fuel (kahn_step nodes st v qrest) := rfl

theorem kahn_loop_nil (nodes : List (Nat × NodeRec)) (fuel : Nat) (st : KState)
    (h : st.queue = []) : kahn_loop nodes (fuel + 1) st = st := by
  rw [kahn_loop_succ, h]

theorem kahn_loop_cons (nodes : List (Nat × NodeRec)) (fuel : Nat) (st : KState)
    (v : Nat) (qrest : List Nat) (h : st.queue = v :: qrest) :
    kahn_loop nodes (fuel + 1) st = kahn_loop nodes fuel (kahn_step nodes st v qrest) := by
  rw [kahn_loop_succ, h]

theorem kahn_loop_queue_empty (nodes : List (Nat × NodeRec)) :
    ∀ fuel st, kahn_measure st ≤ fuel → (kahn_loop nodes fuel st).queue = [] := by
  intro fuel
  induction fuel with
  | zero =>
    intro st h
    unfold kahn_measure at h
    show st.queue = []
    have : st.queue.length = 0 := by omega
    exact List.length_eq_zero.mp this
  | succ fuel ih =>
    intro st h
    cases hq : st.queue with
    | nil =>
      rw [kahn_loop_nil _ _ _ hq]
      exact hq
    | cons v qrest =>
      rw [kahn_loop_cons _ _ _ _ _ hq]
      apply ih
      have hmeas := dec_successors_measure (succ_of nodes v) st.in_degree qrest
      rw [kahn_measure_step]
      have hlen : st.queue.length = qrest.length + 1 := by rw [hq]; rfl
      unfold kahn_measure at h
      omega

theorem succ_of_nodup {nodes : List (Nat × NodeRec)}
    (hsucc : ∀ u r, alookup u nodes = some r →
      (akeys r.out_channels).Nodup ∧ ∀ w ∈ akeys r.out_channels, w ∈ akeys nodes)
    (v : Nat) : (succ_of nodes v).Nodup := by
  unfold succ_of
  cases hv : alookup v nodes with
  | none => simp
  | some r => exact (hsucc v r hv).1

theorem succ_of_subset {nodes : List (Nat × NodeRec)}
    (hsucc : ∀ u r, alookup u nodes = some r →
      (akeys r.out_channels).Nodup ∧ ∀ w ∈ akeys r.out_channels, w ∈ akeys nodes)
    (v : Nat) : ∀ w ∈ succ_of nodes v, w ∈ akeys nodes := by
  unfold succ_of
  cases hv : alookup v nodes with
  | none => simp
  | some r => exact (hsucc v r hv).2

theorem kahn_step_inv (nodes : List (Nat × NodeRec))
    (hN : (akeys nodes).Nodup)
    (hsucc : ∀ u r, alookup u nodes = some r →
      (akeys r.out_channels).Nodup ∧ ∀ w ∈ akeys r.out_channels, w ∈ akeys nodes)
    (st : KState) (vis : List Nat) (v : Nat) (qrest : List Nat)
    (hq : st.queue = v :: qrest) (hinv : KInv nodes st vis) :
    KInv nodes (kahn_step nodes st v qrest) (vis ++ [v]) := by
  have hvq : v ∈ st.queue := by rw [hq]; exact List.mem_cons_self _ _
  have hvN : v ∈ akeys nodes := hinv.queueN v hvq
  have hvVis : v ∉ vis := hinv.queueNotVis v hvq
  have hvZero : updeg nodes vis v = 0 := hinv.queueZero v hvq
  have hqrest_sub : ∀ x ∈ qrest, x ∈ st.queue := by
    intro x hx
    rw [hq]
    exact List.mem_cons_of_mem _ hx
  have hqnd : (v :: qrest).Nodup := by rw [← hq]; exact hinv.queueND
  have hvnotqrest : v ∉ qrest := (List.nodup_cons.mp hqnd).1
  have hqrestnd : qrest.Nodup := (List.nodup_cons.mp hqnd).2
  have hssnd : (succ_of nodes v).Nodup := succ_of_nodup hsucc v
  have hssmem : ∀ w ∈ succ_of nodes v, w ∈ akeys nodes := succ_of_subset hsucc v
  have hssdeg : ∀ w ∈ succ_of nodes v, w ∈ akeys st.in_degree := by
    intro w hw
    rw [hinv.degKeys]
    exact hssmem w hw
  obtain ⟨hspec1, hspec2, hspec3⟩ :=
    dec_successors_spec (succ_of nodes v) st.in_degree qrest hssnd hssdeg
  have hupE : ∀ w, EdgeRel nodes v w →
      updeg nodes (vis ++ [v]) w + 1 = updeg nodes vis w :=
    fun w he => updeg_append_edge hN hvVis he
  have hupN : ∀ w, ¬EdgeRel nodes v w →
      updeg nodes (vis ++ [v]) w = updeg nodes vis w :=
    fun w he => updeg_append_not_edge he
  have hedge_iff : ∀ w, EdgeRel nodes v w ↔ w ∈ succ_of nodes v := fun w => Iff.rfl
  have hq' : (kahn_step nodes st v qrest).queue =
      ((succ_of nodes v).filter
        (fun s => decide (alookup s st.in_degree = some 1))).reverse ++ qrest := by
    rw [kahn_step_queue, hspec2]
  have hpush_iff : ∀ s,
      s ∈ (succ_of nodes v).filter (fun s => decide (alookup s st.in_degree = some 1)) ↔
      (s ∈ succ_of nodes v ∧ updeg nodes vis s = 1) := by
    intro s
    rw [List.mem_filter]
    constructor
    · rintro ⟨hs1, hs2⟩
      refine ⟨hs1, ?_⟩
      have hdv := hinv.degVal s (hssmem s hs1)
      rw [decide_eq_true_eq, hdv] at hs2
      injection hs2 with hs2
    · rintro ⟨hs1, hs2⟩
      refine ⟨hs1, ?_⟩
      rw [decide_eq_true_eq, hinv.degVal s (hssmem s hs1), hs2]
  have hdegVal' : ∀ w ∈ akeys nodes,
      alookup w (kahn_step nodes st v qrest).in_degree =
        some (updeg nodes (vis ++ [v]) w) := by
    intro w hw
    rw [kahn_step_in_degree, hspec1 w]
    by_cases hws : w ∈ succ_of nodes v
    · rw [if_pos hws, hinv.degVal w hw]
      have he := hupE w ((hedge_iff w).mpr hws)
      have heq : updeg nodes vis w - 1 = updeg nodes (vis ++ [v]) w := by omega
      show some (updeg nodes vis w - 1) = some (updeg nodes (vis ++ [v]) w)
      rw [heq]
    · rw [if_neg hws, hinv.degVal w hw, hupN w (fun he => hws ((hedge_iff w).mp he))]
  refine
    { visN := ?_, visND := ?_, visZero := ?_, queueN := ?_, queueND := ?_,
      queueNotVis := ?_, queueZero := ?_, degKeys := ?_, degVal := hdegVal',
      zeroCov := ?_, procLen := ?_, visTopo := ?_ }
  · intro x hx
    rcases List.mem_append.mp hx with hx | hx
    · exact hinv.visN x hx
    · rw [List.mem_singleton] at hx
      subst hx
      exact hvN
  · refine hinv.visND.append (List.nodup_singleton v) ?_
    intro x hx hx'
    rw [List.mem_singleton] at hx'
    subst hx'
    exact hvVis hx
  · intro x hx
    rcases List.mem_append.mp hx with hx | hx
    · exact updeg_append_zero (hinv.visZero x hx)
    · rw [List.mem_singleton] at hx
      subst hx
      exact updeg_append_zero hvZero
  · intro x hx
    rw [hq'] at hx
    rcases List.mem_append.mp hx with hx | hx
    · rw [List.mem_reverse] at hx
      exact hssmem x ((hpush_iff x).mp hx).1
    · exact hinv.queueN x (hqrest_sub x hx)
  · rw [hq']
    refine List.Nodup.append (List.nodup_reverse.mpr (hssnd.filter _)) hqrestnd ?_
    intro x hx hx'
    rw [List.mem_reverse] at hx
    have h1 : updeg nodes vis x = 1 := ((hpush_iff x).mp hx).2
    have h0 : updeg nodes vis x = 0 := hinv.queueZero x (hqrest_sub x hx')
    omega
  · intro x hx hx'
    rw [hq'] at hx
    rcases List.mem_append.mp hx with hpush | hqr
    · rw [List.mem_reverse] at hpush
      have h1 : updeg nodes vis x = 1 := ((hpush_iff x).mp hpush).2
      rcases List.mem_append.mp hx' with hv' | hv'
      · have := hinv.visZero x hv'
        omega
      · rw [List.mem_singleton] at hv'
        subst hv'
        omega
    · rcases List.mem_append.mp hx' with hv' | hv'
      · exact hinv.queueNotVis x (hqrest_sub x hqr) hv'
      · rw [List.mem_singleton] at hv'
        subst hv'
        exact hvnotqrest hqr
  · intro x hx
    rw [hq'] at hx
    rcases List.mem_append.mp hx with hx | hx
    · rw [List.mem_reverse] at hx
      obtain ⟨hx1, hx2⟩ := (hpush_iff x).mp hx
      have := hupE x ((hedge_iff x).mpr hx1)
      omega
    · exact updeg_append_zero (hinv.queueZero x (hqrest_sub x hx))
  · rw [kahn_step_in_degree, hspec3]
    exact hinv.degKeys
  · intro w hw h0
    by_cases hw0 : updeg nodes vis w = 0
    · rcases hinv.zeroCov w hw hw0 with h | h
      · exact Or.inl (List.mem_append_left _ h)
      · rw [hq] at h
        rcases List.mem_cons.mp h with h | h
        · subst h
          exact Or.inl (List.mem_append_right _ (List.mem_singleton_self _))
        · right
          rw [hq']
          exact List.mem_append_right _ h
    · by_cases hws : w ∈ succ_of nodes v
      · have he := hupE w ((hedge_iff w).mpr hws)
        have h1 : updeg nodes vis w = 1 := by omega
        right
        rw [hq']
        refine List.mem_append_left _ ?_
        rw [List.mem_reverse]
        exact (hpush_iff w).mpr ⟨hws, h1⟩
      · have := hupN w (fun he => hws ((hedge_iff w).mp he))
        omega
  · rw [kahn_step_processed, hinv.procLen]
    simp
  · intro i u w hget he
    rcases Nat.lt_trichotomy i vis.length with hlt | heq | hgt
    · rw [List.getElem?_append_left hlt] at hget
      have hu := hinv.visTopo i u w hget he
      rw [List.take_append_of_le_length (le_of_lt hlt)]
      exact hu
    · subst heq
      rw [List.getElem?_concat_length] at hget
      injection hget with hget
      subst hget
      rw [List.take_left]
      exact (updeg_eq_zero_iff nodes vis v).mp hvZero u he
    · have : (vis ++ [v]).length ≤ i := by
        rw [List.length_append]
        simp only [List.length_singleton]
        omega
      rw [List.getElem?_eq_none this] at hget
      exact Option.noConfusion hget

theorem kahn_loop_inv (nodes : List (Nat × NodeRec))
    (hN : (akeys nodes).Nodup)
    (hsucc : ∀ u r, alookup u nodes = some r →
      (akeys r.out_channels).Nodup ∧ ∀ w ∈ akeys r.out_channels, w ∈ akeys nodes) :
    ∀ fuel st vis, KInv nodes st vis →
      ∃ vis', KInv nodes (kahn_loop nodes fuel st) vis' := by
  intro fuel
  induction fuel with
  | zero =>
    intro st vis h
    exact ⟨vis, h⟩
  | succ fuel ih =>
    intro st vis h
    cases hq : st.queue with
    | nil =>
      rw [kahn_loop_nil _ _ _ hq]
      exact ⟨vis, h⟩
    | cons v qrest =>
      rw [kahn_loop_cons _ _ _ _ _ hq]
      exact ih _ _ (kahn_step_inv nodes hN hsucc st vis v qrest hq h)

theorem mem_remove_duplicates_go (x : Nat) (l : List Nat) :
    ∀ seen, x ∈ remove_duplicates_go seen l ↔ (x ∈ l ∧ x ∉ seen) := by
  induction l with
  | nil => intro seen; simp [remove_duplicates_go]
  | cons y rest ih =>
    intro seen
    by_cases hy : y ∈ seen
    · rw [remove_duplicates_go, if_pos hy, ih seen]
      constructor
      · rintro ⟨h1, h2⟩
        exact ⟨List.mem_cons_of_mem _ h1, h2⟩
      · rintro ⟨h1, h2⟩
        rcases List.mem_cons.mp h1 with h1 | h1
        · subst h1
          exact absurd hy h2
        · exact ⟨h1, h2⟩
    · rw [remove_duplicates_go, if_neg hy]
      constructor
      · intro hx
        rcases List.mem_cons.mp hx with hx | hx
        · subst hx
          exact ⟨List.mem_cons_self _ _, hy⟩
        · obtain ⟨h1, h2⟩ := (ih (y :: seen)).mp hx
          refine ⟨List.mem_cons_of_mem _ h1, fun hc => h2 (List.mem_cons_of_mem _ hc)⟩
      · rintro ⟨h1, h2⟩
        rcases List.mem_cons.mp h1 with h1 | h1
        · subst h1
          exact List.mem_cons_self _ _
        · by_cases hxy : x = y
          · subst hxy
            exact List.mem_cons_self _ _
          · refine List.mem_cons_of_mem _ ((ih (y :: seen)).mpr ⟨h1, ?_⟩)
            intro hc
            rcases List.mem_cons.mp hc with hc | hc
            · exact hxy hc
            · exact h2 hc

theorem mem_remove_duplicates (x : Nat) (l : List Nat) :
    x ∈ remove_duplicates l ↔ x ∈ l := by
  unfold remove_duplicates
  rw [mem_remove_duplicates_go]
  simp

theorem remove_duplicates_go_nodup (l : List Nat) :
    ∀ seen, (remove_duplicates_go seen l).Nodup := by
  induction l with
  | nil => intro seen; simp [remove_duplicates_go]
  | cons y rest ih =>
    intro seen
    by_cases hy : y ∈ seen
    · rw [remove_duplicates_go, if_pos hy]
      exact ih seen
    · rw [remove_duplicates_go, if_neg hy]
      refine List.Nodup.cons ?_ (ih (y :: seen))
      intro hc
      exact ((mem_remove_duplicates_go y rest (y :: seen)).mp hc).2 (List.mem_cons_self _ _)

theorem remove_duplicates_nodup (l : List Nat) : (remove_duplicates l).Nodup :=
  remove_duplicates_go_nodup l []

theorem bump_in_degree_lookup_ne {t w : Nat} (h : t ≠ w) (m : List (Nat × Nat)) :
    alookup w (bump_in_degree t m) = alookup w m := by
  unfold bump_in_degree
  cases alookup t m with
  | none => exact alookup_aset_ne h _ _
  | some d => exact alookup_aset_ne h _ _

theorem bump_in_degree_lookup_self (t : Nat) (m : List (Nat × Nat)) :
    alookup t (bump_in_degree t m) =
      match alookup t m with
      | some d => some (d + 1)
      | none => some 0 := by
  unfold bump_in_degree
  cases h : alookup t m with
  | none => simp [alookup_aset_self]
  | some d => simp [alookup_aset_self]

theorem bump_in_degree_keys {t : Nat} {m : List (Nat × Nat)} (h : t ∈ akeys m) :
    akeys (bump_in_degree t m) = akeys m := by
  unfold bump_in_degree
  cases h' : alookup t m with
  | none => exact absurd h ((alookup_eq_none_iff t m).mp h')
  | some d => exact akeys_aset_of_mem h _

theorem add_edge_loop1_cons (acc : EdgeAcc) (t : Nat) (rest : List Nat) :
    add_edge_loop1 acc (t :: rest) =
      if (alookup t acc.out_channels).isSome then add_edge_loop1 acc rest
      else
        add_edge_loop1
          { out_channels := aset t OutChannel.Mpsc acc.out_channels,
            in_degree := bump_in_degree t acc.in_degree,
            rx_map := aset t (InChannel.Mpsc []) acc.rx_map }
          rest := rfl

theorem add_edge_loop1_spec (tos : List Nat) (hnd : tos.Nodup) :
    ∀ acc : EdgeAcc,
    (∀ w, alookup w (add_edge_loop1 acc tos).out_channels =
      if w ∈ tos ∧ alookup w acc.out_channels = none then some OutChannel.Mpsc
      else alookup w acc.out_channels) ∧
    (∀ w, alookup w (add_edge_loop1 acc tos).in_degree =
      if w ∈ tos ∧ alookup w acc.out_channels = none then
        (match alookup w acc.in_degree with
         | some d => some (d + 1)
         | none => some 0)
      else alookup w acc.in_degree) ∧
    (akeys (add_edge_loop1 acc tos).out_channels =
      akeys acc.out_channels ++
        tos.filter (fun t => decide (alookup t acc.out_channels = none))) := by
  induction tos with
  | nil =>
    intro acc
    refine ⟨fun w => by simp [add_edge_loop1], fun w => by simp [add_edge_loop1], by
      simp [add_edge_loop1]⟩
  | cons t rest ih =>
    intro acc
    rw [List.nodup_cons] at hnd
    have ihr := ih hnd.2
    rw [add_edge_loop1_cons]
    by_cases ht : (alookup t acc.out_channels).isSome
    · obtain ⟨ch, hch⟩ := Option.isSome_iff_exists.mp ht
      rw [if_pos ht]
      obtain ⟨ih1, ih2, ih3⟩ := ihr acc
      refine ⟨?_, ?_, ?_⟩
      · intro w
        rw [ih1 w]
        by_cases hw : w = t
        · subst hw
          rw [if_neg, if_neg]
          · rintro ⟨_, hc⟩
            rw [hch] at hc
            exact Option.noConfusion hc
          · rintro ⟨_, hc⟩
            rw [hch] at hc
            exact Option.noConfusion hc
        · by_cases hwr : w ∈ rest ∧ alookup w acc.out_channels = none
          · rw [if_pos hwr, if_pos ⟨List.mem_cons_of_mem _ hwr.1, hwr.2⟩]
          · rw [if_neg hwr, if_neg]
            rintro ⟨h1, h2⟩
            rcases List.mem_cons.mp h1 with h1 | h1
            · exact hw h1
            · exact hwr ⟨h1, h2⟩
      · intro w
        rw [ih2 w]
        by_cases hw : w = t
        · subst hw
          rw [if_neg, if_neg]
          · rintro ⟨_, hc⟩
            rw [hch] at hc
            exact Option.noConfusion hc
          · rintro ⟨_, hc⟩
            rw [hch] at hc
            exact Option.noConfusion hc
        · by_cases hwr : w ∈ rest ∧ alookup w acc.out_channels = none
          · rw [if_pos hwr, if_pos ⟨List.mem_cons_of_mem _ hwr.1, hwr.2⟩]
          · rw [if_neg hwr, if_neg]
            rintro ⟨h1, h2⟩
            rcases List.mem_cons.mp h1 with h1 | h1
            · exact hw h1
            · exact hwr ⟨h1, h2⟩
      · rw [ih3, List.filter_cons]
        simp [hch]
    · have htn : alookup t acc.out_channels = none := by
        cases h : alookup t acc.out_channels with
        | none => rfl
        | some ch => rw [h] at ht; simp at ht
      rw [if_neg ht]
      obtain ⟨ih1, ih2, ih3⟩ := ihr
        { out_channels := aset t OutChannel.Mpsc acc.out_channels,
          in_degree := bump_in_degree t acc.in_degree,
          rx_map := aset t (InChannel.Mpsc []) acc.rx_map }
      refine ⟨?_, ?_, ?_⟩
      · intro w
        rw [ih1 w]
        by_cases hw : w = t
        · subst hw
          have hwr : w ∉ rest := hnd.1
          rw [if_neg, if_pos ⟨List.mem_cons_self _ _, htn⟩]
          · simp [alookup_aset_self]
          · rintro ⟨h1, _⟩
            exact hwr h1
        · have htw : t ≠ w := fun hh => hw hh.symm
          have haset : alookup w (aset t OutChannel.Mpsc acc.out_channels) =
              alookup w acc.out_channels := alookup_aset_ne htw _ _
          simp only [haset]
          by_cases hwr : w ∈ rest ∧ alookup w acc.out_channels = none
          · rw [if_pos hwr, if_pos ⟨List.mem_cons_of_mem _ hwr.1, hwr.2⟩]
          · rw [if_neg hwr, if_neg]
            rintro ⟨h1, h2⟩
            rcases List.mem_cons.mp h1 with h1 | h1
            · exact hw h1
            · exact hwr ⟨h1, h2⟩
      · intro w
        rw [ih2 w]
        by_cases hw : w = t
        · subst hw
          have hwr : w ∉ rest := hnd.1
          rw [if_neg, if_pos ⟨List.mem_cons_self _ _, htn⟩]
          · rw [bump_in_degree_lookup_self]
          · rintro ⟨h1, _⟩
            exact hwr h1
        · have htw : t ≠ w := fun hh => hw hh.symm
          have haset : alookup w (aset t OutChannel.Mpsc acc.out_channels) =
              alookup w acc.out_channels := alookup_aset_ne htw _ _
          have hbump : alookup w (bump_in_degree t acc.in_degree) =
              alookup w acc.in_degree := bump_in_degree_lookup_ne htw _
          simp only [haset, hbump]
          by_cases hwr : w ∈ rest ∧ alookup w acc.out_channels = none
          · rw [if_pos hwr, if_pos ⟨List.mem_cons_of_mem _ hwr.1, hwr.2⟩]
          · rw [if_neg hwr, if_neg]
            rintro ⟨h1, h2⟩
            rcases List.mem_cons.mp h1 with h1 | h1
            · exact hw h1
            · exact hwr ⟨h1, h2⟩
      · rw [ih3]
        have hkeys : akeys (aset t OutChannel.Mpsc acc.out_channels) =
            akeys acc.out_channels ++ [t] :=
          akeys_aset_of_not_mem ((alookup_eq_none_iff t _).mp htn) _
        rw [hkeys]
        have hcongr : rest.filter
              (fun s => decide (alookup s (aset t OutChannel.Mpsc acc.out_channels) = none))
            = rest.filter (fun s => decide (alookup s acc.out_channels = none)) := by
          apply List.filter_congr
          intro s hs
          have hts : t ≠ s := fun hh => hnd.1 (hh ▸ hs)
          rw [alookup_aset_ne hts]
        rw [hcongr, List.filter_cons]
        simp [htn]

theorem add_edge_loop1_deg_keys (tos : List Nat) :
    ∀ acc : EdgeAcc, (∀ t ∈ tos, t ∈ akeys acc.in_degree) →
    akeys (add_edge_loop1 acc tos).in_degree = akeys acc.in_degree := by
  induction tos with
  | nil => intro acc _; rfl
  | cons t rest ih =>
    intro acc hmem
    rw [add_edge_loop1_cons]
    by_cases ht : (alookup t acc.out_channels).isSome
    · rw [if_pos ht]
      exact ih acc (fun s hs => hmem s (List.mem_cons_of_mem _ hs))
    · rw [if_neg ht]
      have hbk : akeys (bump_in_degree t acc.in_degree) = akeys acc.in_degree :=
        bump_in_degree_keys (hmem t (List.mem_cons_self _ _))
      rw [ih _ (by
        intro s hs
        show s ∈ akeys (bump_in_degree t acc.in_degree)
        rw [hbk]
        exact hmem s (List.mem_cons_of_mem _ hs))]
      exact hbk

theorem add_edge_loop2_keys (u : Nat) (tos : List Nat) :
    ∀ nodes rx, akeys (add_edge_loop2 u nodes rx tos) = akeys nodes := by
  induction tos with
  | nil => intro nodes rx; rfl
  | cons t rest ih =>
    intro nodes rx
    unfold add_edge_loop2
    cases hn : alookup t nodes with
    | none => exact ih nodes rx
    | some toRec =>
      cases hr : alookup t rx with
      | none => exact ih nodes rx
      | some c =>
        rw [ih _ _]
        exact akeys_aset_of_mem (mem_akeys_of_alookup hn) _

theorem add_edge_loop2_out_channels (u : Nat) (tos : List Nat) :
    ∀ nodes rx w,
      (alookup w (add_edge_loop2 u nodes rx tos)).map NodeRec.out_channels =
        (alookup w nodes).map NodeRec.out_channels ∧
      (alookup w (add_edge_loop2 u nodes rx tos)).map NodeRec.is_condition =
        (alookup w nodes).map NodeRec.is_condition ∧
      (alookup w (add_edge_loop2 u nodes rx tos)).map NodeRec.behavior =
        (alookup w nodes).map NodeRec.behavior := by
  induction tos with
  | nil => intro nodes rx w; exact ⟨rfl, rfl, rfl⟩
  | cons t rest ih =>
    intro nodes rx w
    unfold add_edge_loop2
    cases hn : alookup t nodes with
    | none => exact ih nodes rx w
    | some toRec =>
      cases hr : alookup t rx with
      | none => exact ih nodes rx w
      | some c =>
        obtain ⟨ih1, ih2, ih3⟩ := ih
          (aset t { toRec with in_channels := aset u c toRec.in_channels } nodes)
          (aremove t rx) w
        rw [ih1, ih2, ih3]
        by_cases hw : t = w
        · subst hw
          rw [alookup_aset_self, hn]
          exact ⟨rfl, rfl, rfl⟩
        · rw [alookup_aset_ne hw]
          exact ⟨rfl, rfl, rfl⟩

theorem succ_of_loop2 (u : Nat) (tos : List Nat) (nodes : List (Nat × NodeRec))
    (rx : List (Nat × InChannel)) (w : Nat) :
    succ_of (add_edge_loop2 u nodes rx tos) w = succ_of nodes w := by
  have h := (add_edge_loop2_out_channels u tos nodes rx w).1
  unfold succ_of
  cases h1 : alookup w (add_edge_loop2 u nodes rx tos) with
  | none =>
    rw [h1] at h
    cases h2 : alookup w nodes with
    | none => rfl
    | some r => rw [h2] at h; exact Option.noConfusion h
  | some r' =>
    rw [h1] at h
    cases h2 : alookup w nodes with
    | none => rw [h2] at h; exact Option.noConfusion h
    | some r =>
      rw [h2] at h
      have h' : r'.out_channels = r.out_channels := by
        injection h with h
      show akeys r'.out_channels = akeys r.out_channels
      rw [h']

theorem contains_iff (l : List Nat) (a : Nat) : l.contains a = true ↔ a ∈ l :=
  List.elem_iff

theorem build_inv_new : BuildInv Graph.new := by
  refine
    { ndKeys := ?_, degKeysEq := rfl, countEq := rfl, succOK := ?_, degInit := ?_,
      activeTrue := rfl, blocksNil := rfl }
  · simp [Graph.new, akeys]
  · intro u r h
    simp [Graph.new, alookup] at h
  · intro v hv
    simp [Graph.new, akeys] at hv

theorem add_node_eq (g : Graph) (id : Nat) (rec : NodeRec) :
    (g.add_node id rec).nodes = aset id rec g.nodes ∧
    (g.add_node id rec).in_degree = aset id 0 g.in_degree ∧
    (g.add_node id rec).node_count = g.node_count + 1 ∧
    (g.add_node id rec).is_active = g.is_active ∧
    (g.add_node id rec).blocks = g.blocks :=
  ⟨rfl, rfl, rfl, rfl, rfl⟩

theorem updeg_no_preds {g : Graph} (hinv : BuildInv g) {v : Nat}
    (hv : v ∉ akeys g.nodes) : updeg g.nodes [] v = 0 := by
  unfold updeg
  rw [List.length_eq_zero, List.filter_eq_nil_iff]
  intro u hu
  simp only [decide_eq_true_eq]
  rintro ⟨-, hsv⟩
  unfold succ_of at hsv
  cases h : alookup u g.nodes with
  | none => rw [h] at hsv; simp at hsv
  | some r =>
    rw [h] at hsv
    exact hv ((hinv.succOK u r h).2 v hsv)

theorem build_inv_add_node (g : Graph) (id : Nat) (c : Bool) (b : NodeBehavior)
    (hid : id ∉ akeys g.nodes) (hinv : BuildInv g) :
    BuildInv (g.add_node id
      { is_condition := c, behavior := b, out_channels := [], in_channels := [] }) := by
  set rec : NodeRec :=
    { is_condition := c, behavior := b, out_channels := [], in_channels := [] } with hrec
  have hkeysN : akeys (g.add_node id rec).nodes = akeys g.nodes ++ [id] := by
    show akeys (aset id rec g.nodes) = _
    exact akeys_aset_of_not_mem hid _
  have hidD : id ∉ akeys g.in_degree := by
    rw [hinv.degKeysEq]
    exact hid
  have hkeysD : akeys (g.add_node id rec).in_degree = akeys g.in_degree ++ [id] := by
    show akeys (aset id 0 g.in_degree) = _
    exact akeys_aset_of_not_mem hidD _
  have hsucc_ne : ∀ w, w ≠ id → succ_of (g.add_node id rec).nodes w = succ_of g.nodes w := by
    intro w hw
    show succ_of (aset id rec g.nodes) w = succ_of g.nodes w
    unfold succ_of
    rw [alookup_aset_ne (fun hh => hw hh.symm)]
  have hsucc_id : succ_of (g.add_node id rec).nodes id = [] := by
    show succ_of (aset id rec g.nodes) id = []
    unfold succ_of
    rw [alookup_aset_self]
    rfl
  have hupd : ∀ v, updeg (g.add_node id rec).nodes [] v = updeg g.nodes [] v := by
    intro v
    unfold updeg
    rw [hkeysN, List.filter_append]
    have h1 : (akeys g.nodes).filter
          (fun u => decide (u ∉ ([] : List Nat) ∧ v ∈ succ_of (g.add_node id rec).nodes u))
        = (akeys g.nodes).filter
          (fun u => decide (u ∉ ([] : List Nat) ∧ v ∈ succ_of g.nodes u)) := by
      apply List.filter_congr
      intro u hu
      have hne : u ≠ id := fun hh => hid (hh ▸ hu)
      rw [hsucc_ne u hne]
    have h2 : ([id] : List Nat).filter
          (fun u => decide (u ∉ ([] : List Nat) ∧ v ∈ succ_of (g.add_node id rec).nodes u))
        = [] := by
      rw [List.filter_eq_nil_iff]
      intro u hu
      rw [List.mem_singleton] at hu
      subst hu
      simp [hsucc_id]
    rw [h1, h2]
    simp
  refine
    { ndKeys := ?_, degKeysEq := ?_, countEq := ?_, succOK := ?_, degInit := ?_,
      activeTrue := ?_, blocksNil := ?_ }
  · rw [hkeysN]
    simp only [List.nodup_append, List.nodup_singleton]
    exact ⟨hinv.ndKeys, trivial, by
      intro x hx
      simp only [List.mem_singleton]
      intro hh
      subst hh
      exact hid hx⟩
  · rw [hkeysN, hkeysD, hinv.degKeysEq]
  · show g.node_count + 1 = (akeys (g.add_node id rec).nodes).length
    rw [hkeysN, List.length_append, hinv.countEq]
    simp
  · intro w r' hw
    by_cases hwid : w = id
    · subst hwid
      have : alookup w (aset w rec g.nodes) = some rec := alookup_aset_self _ _ _
      rw [show (g.add_node w rec).nodes = aset w rec g.nodes from rfl, this] at hw
      injection hw with hw
      subst hw
      constructor
      · simp [hrec, akeys]
      · intro x hx
        simp [hrec, akeys] at hx
    · rw [show (g.add_node id rec).nodes = aset id rec g.nodes from rfl,
        alookup_aset_ne (fun hh => hwid hh.symm)] at hw
      obtain ⟨hnd, hmem⟩ := hinv.succOK w r' hw
      refine ⟨hnd, fun x hx => ?_⟩
      rw [hkeysN]
      exact List.mem_append_left _ (hmem x hx)
  · intro v hv
    rw [hupd v]
    rw [hkeysN] at hv
    rcases List.mem_append.mp hv with hv | hv
    · have hne : v ≠ id := fun hh => hid (hh ▸ hv)
      rw [show (g.add_node id rec).in_degree = aset id 0 g.in_degree from rfl,
        alookup_aset_ne (fun hh => hne hh.symm)]
      exact hinv.degInit v hv
    · rw [List.mem_singleton] at hv
      subst hv
      rw [show (g.add_node v rec).in_degree = aset v 0 g.in_degree from rfl,
        alookup_aset_self, updeg_no_preds hinv hid]
  · exact hinv.activeTrue
  · exact hinv.blocksNil

theorem add_edge_eq {g : Graph} {u : Nat} {fromRec : NodeRec} (tos : List Nat)
    (hfrom : alookup u g.nodes = some fromRec) :
    g.add_edge u tos =
      { g with
        nodes := add_edge_loop2 u
          (aset u { fromRec with out_channels :=
              (add_edge_loop1
                { out_channels := fromRec.out_channels, in_degree := g.in_degree,
                  rx_map := [] } (remove_duplicates tos)).out_channels }
            g.nodes)
          (add_edge_loop1
            { out_channels := fromRec.out_channels, in_degree := g.in_degree,
              rx_map := [] } (remove_duplicates tos)).rx_map
          (remove_duplicates tos),
        in_degree := (add_edge_loop1
          { out_channels := fromRec.out_channels, in_degree := g.in_degree,
            rx_map := [] } (remove_duplicates tos)).in_degree } := by
  unfold Graph.add_edge
  rw [hfrom]

theorem build_inv_add_edge (g : Graph) (u : Nat) (tos : List Nat)
    (hu : u ∈ akeys g.nodes) (htos : ∀ t ∈ tos, t ∈ akeys g.nodes)
    (hinv : BuildInv g) : BuildInv (g.add_edge u tos) := by
  obtain ⟨fromRec, hfrom⟩ : ∃ r, alookup u g.nodes = some r := by
    cases h : alookup u g.nodes with
    | none => exact absurd hu ((alookup_eq_none_iff u g.nodes).mp h)
    | some r => exact ⟨r, rfl⟩
  have hndt : (remove_duplicates tos).Nodup := remove_duplicates_nodup tos
  have htos' : ∀ t ∈ remove_duplicates tos, t ∈ akeys g.nodes := by
    intro t ht
    exact htos t ((mem_remove_duplicates t tos).mp ht)
  obtain ⟨hs1, hs2, hs3⟩ := add_edge_loop1_spec (remove_duplicates tos) hndt
    { out_channels := fromRec.out_channels, in_degree := g.in_degree, rx_map := [] }
  dsimp only at hs1 hs2 hs3
  obtain ⟨hoNodup, hoMem⟩ := hinv.succOK u fromRec hfrom
  rw [add_edge_eq tos hfrom]
  set acc := add_edge_loop1
    { out_channels := fromRec.out_channels, in_degree := g.in_degree, rx_map := [] }
    (remove_duplicates tos) with hacc
  set nodes1 := aset u { fromRec with out_channels := acc.out_channels } g.nodes with hn1
  set nodes2 := add_edge_loop2 u nodes1 acc.rx_map (remove_duplicates tos) with hn2
  have hkeys1 : akeys nodes1 = akeys g.nodes := akeys_aset_of_mem hu _
  have hkeys2 : akeys nodes2 = akeys g.nodes := by
    rw [hn2, add_edge_loop2_keys, hkeys1]
  have hsucc2 : ∀ w, succ_of nodes2 w = succ_of nodes1 w := by
    intro w
    rw [hn2]
    exact succ_of_loop2 u (remove_duplicates tos) nodes1 acc.rx_map w
  have hsucc1_u : succ_of nodes1 u = akeys acc.out_channels := by
    rw [hn1]
    unfold succ_of
    rw [alookup_aset_self]
  have hsucc1_ne : ∀ w, w ≠ u → succ_of nodes1 w = succ_of g.nodes w := by
    intro w hw
    rw [hn1]
    unfold succ_of
    rw [alookup_aset_ne (fun hh => hw hh.symm)]
  have hdegkeys : akeys acc.in_degree = akeys g.in_degree := by
    rw [hacc]
    apply add_edge_loop1_deg_keys
    intro t ht
    show t ∈ akeys g.in_degree
    rw [hinv.degKeysEq]
    exact htos' t ht
  have hsuccg_u : succ_of g.nodes u = akeys fromRec.out_channels := by
    unfold succ_of
    rw [hfrom]
  have hnewmem : ∀ v, v ∈ akeys acc.out_channels ↔
      (v ∈ remove_duplicates tos ∧ alookup v fromRec.out_channels = none) ∨
        v ∈ akeys fromRec.out_channels := by
    intro v
    rw [← alookup_isSome_iff, hs1 v]
    by_cases hP : v ∈ remove_duplicates tos ∧ alookup v fromRec.out_channels = none
    · rw [if_pos hP]
      constructor
      · intro h2
        exact Or.inl hP
      · intro h2
        rfl
    · rw [if_neg hP]
      rw [alookup_isSome_iff]
      constructor
      · intro h
        exact Or.inr h
      · intro h
        rcases h with h | h
        · exact absurd h hP
        · exact h
  have hupd : ∀ v, updeg nodes2 [] v =
      if v ∈ remove_duplicates tos ∧ alookup v fromRec.out_channels = none then
        updeg g.nodes [] v + 1
      else updeg g.nodes [] v := by
    intro v
    unfold updeg
    rw [hkeys2]
    by_cases hP : v ∈ remove_duplicates tos ∧ alookup v fromRec.out_channels = none
    · rw [if_pos hP]
      refine filter_length_flip hinv.ndKeys _ _ u hu ?_ ?_ ?_
      · simp only [decide_eq_true_eq]
        refine ⟨by simp, ?_⟩
        rw [hsucc2 u, hsucc1_u, hnewmem v]
        exact Or.inl hP
      · simp only [decide_eq_false_iff_not]
        rintro ⟨-, hc⟩
        rw [hsuccg_u] at hc
        rw [← alookup_isSome_iff, hP.2] at hc
        simp at hc
      · intro w _ hwu
        rw [hsucc2 w, hsucc1_ne w hwu]
    · rw [if_neg hP]
      congr 1
      apply List.filter_congr
      intro w _
      by_cases hwu : w = u
      · subst hwu
        rw [hsucc2 w, hsucc1_u]
        simp only [decide_eq_decide]
        constructor
        · rintro ⟨h0, hv⟩
          refine ⟨h0, ?_⟩
          rcases (hnewmem v).mp hv with h | h
          · exact absurd h hP
          · rw [hsuccg_u]
            exact h
        · rintro ⟨h0, hv⟩
          refine ⟨h0, ?_⟩
          rw [hnewmem v]
          right
          rw [hsuccg_u] at hv
          exact hv
      · rw [hsucc2 w, hsucc1_ne w hwu]
  refine
    { ndKeys := ?_, degKeysEq := ?_, countEq := ?_, succOK := ?_, degInit := ?_,
      activeTrue := hinv.activeTrue, blocksNil := hinv.blocksNil }
  · show (akeys nodes2).Nodup
    rw [hkeys2]
    exact hinv.ndKeys
  · show akeys acc.in_degree = akeys nodes2
    rw [hdegkeys, hkeys2, hinv.degKeysEq]
  · show g.node_count = (akeys nodes2).length
    rw [hkeys2]
    exact hinv.countEq
  · intro w r' hw
    have hmap := (add_edge_loop2_out_channels u (remove_duplicates tos) nodes1
      acc.rx_map w).1
    rw [← hn2] at hmap
    rw [show alookup w nodes2 = some r' from hw] at hmap
    have hout : ∃ r1, alookup w nodes1 = some r1 ∧ r'.out_channels = r1.out_channels := by
      cases h1 : alookup w nodes1 with
      | none => rw [h1] at hmap; exact Option.noConfusion hmap
      | some r1 =>
        rw [h1] at hmap
        refine ⟨r1, rfl, ?_⟩
        injection hmap
    obtain ⟨r1, hr1, hro⟩ := hout
    by_cases hwu : w = u
    · subst hwu
      rw [hn1, alookup_aset_self] at hr1
      injection hr1 with hr1
      have hrout : r'.out_channels = acc.out_channels := by
        rw [hro, ← hr1]
      rw [hrout]
      constructor
      · rw [hs3]
        refine List.Nodup.append hoNodup (hndt.filter _) ?_
        intro x hx hx'
        have hx2 := (List.mem_filter.mp hx').2
        rw [decide_eq_true_eq] at hx2
        exact absurd hx ((alookup_eq_none_iff x _).mp hx2)
      · intro x hx
        rw [hkeys2]
        rw [hs3] at hx
        rcases List.mem_append.mp hx with hx | hx
        · exact hoMem x hx
        · exact htos' x (List.mem_of_mem_filter hx)
    · rw [hn1, alookup_aset_ne (fun hh => hwu hh.symm)] at hr1
      obtain ⟨hnd, hmem⟩ := hinv.succOK w r1 hr1
      rw [hro]
      refine ⟨hnd, fun x hx => ?_⟩
      rw [hkeys2]
      exact hmem x hx
  · intro v hv
    have hv' : v ∈ akeys g.nodes := by
      rw [← hkeys2]
      exact hv
    have hold := hinv.degInit v hv'
    have hs2v := hs2 v
    rw [hupd v]
    by_cases hP : v ∈ remove_duplicates tos ∧ alookup v fromRec.out_channels = none
    · rw [if_pos hP] at hs2v ⊢
      rw [hs2v]
      show (match alookup v g.in_degree with
        | some d => some (d + 1)
        | none => some 0) = _
      rw [hold]
    · rw [if_neg hP] at hs2v ⊢
      rw [hs2v]
      exact hold

theorem contains_congr {seen seen' : List Nat}
    (hiff : ∀ x, x ∈ seen ↔ x ∈ seen') (a : Nat) :
    seen.contains a = seen'.contains a := by
  by_cases h : a ∈ seen
  · rw [(contains_iff seen a).mpr h, (contains_iff seen' a).mpr ((hiff a).mp h)]
  · have h' : a ∉ seen' := fun hc => h ((hiff a).mpr hc)
    have e1 : seen.contains a = false := by
      cases hx : seen.contains a
      · rfl
      · exact absurd ((contains_iff seen a).mp hx) h
    have e2 : seen'.contains a = false := by
      cases hx : seen'.contains a
      · rfl
      · exact absurd ((contains_iff seen' a).mp hx) h'
    rw [e1, e2]

theorem wfBuild_congr (ops : List BuildOp) :
    ∀ seen seen', (∀ x, x ∈ seen ↔ x ∈ seen') →
      wfBuild seen ops = wfBuild seen' ops := by
  induction ops with
  | nil => intro seen seen' _; rfl
  | cons op rest ih =>
    intro seen seen' hiff
    cases op with
    | node id c b =>
      show (!(seen.contains id) && wfBuild (id :: seen) rest)
          = (!(seen'.contains id) && wfBuild (id :: seen') rest)
      rw [contains_congr hiff id, ih (id :: seen) (id :: seen') (by
        intro x
        simp only [List.mem_cons]
        rw [hiff x])]
    | edge w tos =>
      show (seen.contains w && tos.all seen.contains && wfBuild seen rest)
          = (seen'.contains w && tos.all seen'.contains && wfBuild seen' rest)
      have h2 : tos.all seen.contains = tos.all seen'.contains := by
        induction tos with
        | nil => rfl
        | cons t ts iht =>
          simp only [List.all_cons, contains_congr hiff t, iht]
      rw [contains_congr hiff w, h2, ih seen seen' hiff]

theorem build_inv_steps (ops : List BuildOp) :
    ∀ g, wfBuild (akeys g.nodes) ops = true → BuildInv g →
      BuildInv (ops.foldl build_step g) := by
  induction ops with
  | nil => intro g _ hinv; exact hinv
  | cons op rest ih =>
    intro g hwf hinv
    rw [List.foldl_cons]
    cases op with
    | node id c b =>
      have hwf0 : ((!((akeys g.nodes).contains id)) &&
          wfBuild (id :: akeys g.nodes) rest) = true := hwf
      have hwf' := Bool.and_eq_true_iff.mp hwf0
      have hid : id ∉ akeys g.nodes := by
        intro hc
        have := hwf'.1
        rw [(contains_iff _ id).mpr hc] at this
        simp at this
      have hinv' : BuildInv (build_step g (.node id c b)) :=
        build_inv_add_node g id c b hid hinv
      apply ih _ _ hinv'
      have hkeys : akeys ((build_step g (.node id c b)).nodes) = akeys g.nodes ++ [id] :=
        akeys_aset_of_not_mem hid _
      have hcongr := wfBuild_congr rest (id :: akeys g.nodes)
        (akeys ((build_step g (.node id c b)).nodes))
        (by
          intro x
          rw [hkeys]
          simp only [List.mem_cons, List.mem_append, List.mem_singleton]
          tauto)
      rw [← hcongr]
      exact hwf'.2
    | edge w tos =>
      have hwf0 : ((akeys g.nodes).contains w && tos.all (akeys g.nodes).contains &&
          wfBuild (akeys g.nodes) rest) = true := hwf
      have hwf' := Bool.and_eq_true_iff.mp hwf0
      have hw : w ∈ akeys g.nodes :=
        (contains_iff _ w).mp (Bool.and_eq_true_iff.mp hwf'.1).1
      have htos : ∀ t ∈ tos, t ∈ akeys g.nodes := by
        intro t ht
        exact (contains_iff _ t).mp
          (List.all_eq_true.mp (Bool.and_eq_true_iff.mp hwf'.1).2 t ht)
      have hinv' := build_inv_add_edge g w tos hw htos hinv
      apply ih _ _ hinv'
      have hkeys : akeys (g.add_edge w tos).nodes = akeys g.nodes := by
        obtain ⟨fromRec, hfrom⟩ : ∃ r, alookup w g.nodes = some r := by
          cases h : alookup w g.nodes with
          | none => exact absurd hw ((alookup_eq_none_iff w g.nodes).mp h)
          | some r => exact ⟨r, rfl⟩
        rw [add_edge_eq tos hfrom]
        show akeys (add_edge_loop2 _ _ _ _) = _
        rw [add_edge_loop2_keys]
        exact akeys_aset_of_mem hw _
      have hcongr := wfBuild_congr rest (akeys g.nodes) (akeys (g.add_edge w tos).nodes)
        (by intro x; rw [hkeys])
      rw [← hcongr]
      exact hwf'.2

theorem build_inv (ops : List BuildOp) (h : wfBuild [] ops = true) :
    BuildInv (build ops) := by
  unfold build
  apply build_inv_steps ops Graph.new _ build_inv_new
  have he : akeys (Graph.new).nodes = ([] : List Nat) := rfl
  rw [he]
  exact h

theorem getElem?_indexOf_self {l : List Nat} {w : Nat} (h : w ∈ l) :
    l[l.indexOf w]? = some w := by
  rw [← List.get?_eq_getElem?]
  exact List.indexOf_get? h

theorem indexOf_lt_of_mem_take {l : List Nat} {u : Nat} :
    ∀ i, u ∈ l.take i → l.indexOf u < i := by
  induction l with
  | nil => intro i h; simp at h
  | cons x rest ih =>
    intro i h
    cases i with
    | zero => simp at h
    | succ i =>
      rw [List.take_succ_cons] at h
      by_cases hux : x = u
      · subst hux
        rw [List.indexOf_cons_self]
        omega
      · rcases List.mem_cons.mp h with h1 | h1
        · exact absurd h1.symm hux
        · rw [List.indexOf_cons_ne _ hux]
          have := ih i h1
          omega

theorem topo_edge_lt {nodes : List (Nat × NodeRec)} {vis : List Nat}
    (htopo : ∀ i u w, vis[i]? = some w → EdgeRel nodes u w → u ∈ vis.take i)
    {u w : Nat} (he : EdgeRel nodes u w) (hw : w ∈ vis) :
    u ∈ vis ∧ vis.indexOf u < vis.indexOf w := by
  have hget : vis[vis.indexOf w]? = some w := getElem?_indexOf_self hw
  have hu := htopo (vis.indexOf w) u w hget he
  exact ⟨List.mem_of_mem_take hu, indexOf_lt_of_mem_take _ hu⟩

theorem topo_transGen_lt {nodes : List (Nat × NodeRec)} {vis : List Nat}
    (htopo : ∀ i u w, vis[i]? = some w → EdgeRel nodes u w → u ∈ vis.take i)
    {a b : Nat} (h : Relation.TransGen (EdgeRel nodes) a b) (hb : b ∈ vis) :
    a ∈ vis ∧ vis.indexOf a < vis.indexOf b := by
  induction h with
  | single h1 => exact topo_edge_lt htopo h1 hb
  | tail h1 h2 ih =>
    obtain ⟨hcvis, hlt⟩ := topo_edge_lt htopo h2 hb
    obtain ⟨havis, hlt2⟩ := ih hcvis
    exact ⟨havis, lt_trans hlt2 hlt⟩

theorem no_cycle_of_all_visited (nodes : List (Nat × NodeRec)) (vis : List Nat)
    (hsucc : ∀ u r, alookup u nodes = some r →
      (akeys r.out_channels).Nodup ∧ ∀ w ∈ akeys r.out_channels, w ∈ akeys nodes)
    (htopo : ∀ i u w, vis[i]? = some w → EdgeRel nodes u w → u ∈ vis.take i)
    (hall : ∀ x ∈ akeys nodes, x ∈ vis) : ¬ HasCycle nodes := by
  rintro ⟨v, hv⟩
  obtain ⟨c, -, hcv⟩ := Relation.TransGen.tail'_iff.mp hv
  have hvN : v ∈ akeys nodes := succ_of_subset hsucc c v hcv
  have hvvis := hall v hvN
  have := (topo_transGen_lt htopo hv hvvis).2
  exact absurd this (lt_irrefl _)

theorem cycle_of_closed_preds (nodes : List (Nat × NodeRec)) (U : List Nat)
    (hne : U ≠ []) (hstep : ∀ w ∈ U, ∃ u ∈ U, EdgeRel nodes u w) :
    HasCycle nodes := by
  classical
  obtain ⟨w0, hw0⟩ : ∃ w, w ∈ U := by
    cases U with
    | nil => exact absurd rfl hne
    | cons a l => exact ⟨a, List.mem_cons_self _ _⟩
  choose f hfU hfE using hstep
  let F : Nat → {x : Nat // x ∈ U} := fun n =>
    Nat.rec (⟨w0, hw0⟩ : {x : Nat // x ∈ U}) (fun _ p => ⟨f p.1 p.2, hfU p.1 p.2⟩) n
  have hFstep : ∀ n, EdgeRel nodes (F (n + 1)).1 (F n).1 := fun n => hfE (F n).1 (F n).2
  have hchain : ∀ i j, i < j →
      Relation.TransGen (EdgeRel nodes) (F j).1 (F i).1 := by
    intro i j hij
    induction j with
    | zero => omega
    | succ j ihj =>
      rcases Nat.lt_succ_iff_lt_or_eq.mp hij with h' | h'
      · exact Relation.TransGen.head (hFstep j) (ihj h')
      · subst h'
        exact Relation.TransGen.single (hFstep i)
  have hcard : Fintype.card {x // x ∈ U.toFinset} <
      Fintype.card (Fin (U.toFinset.card + 1)) := by
    rw [Fintype.card_coe, Fintype.card_fin]
    omega
  obtain ⟨i, j, hne', heq⟩ := Fintype.exists_ne_map_eq_of_card_lt
    (fun i : Fin (U.toFinset.card + 1) =>
      (⟨(F i.1).1, List.mem_toFinset.mpr (F i.1).2⟩ : {x // x ∈ U.toFinset})) hcard
  have hij0 := congrArg (fun s : {x // x ∈ U.toFinset} => s.1) heq
  have hij : (F i.1).1 = (F j.1).1 := hij0
  have hvalne : i.1 ≠ j.1 := fun hh => hne' (Fin.ext hh)
  rcases Nat.lt_or_ge i.1 j.1 with hlt | hge
  · have hch := hchain i.1 j.1 hlt
    rw [← hij] at hch
    exact ⟨(F i.1).1, hch⟩
  · have hlt2 : j.1 < i.1 := by omega
    have hch := hchain j.1 i.1 hlt2
    rw [hij] at hch
    exact ⟨(F j.1).1, hch⟩

theorem length_lt_of_missing {vis N : List Nat} (hvnd : vis.Nodup)
    (hnnd : N.Nodup) (hsub : ∀ x ∈ vis, x ∈ N) {w : Nat} (hw : w ∈ N)
    (hwv : w ∉ vis) : vis.length < N.length := by
  have h1 : vis.toFinset.card = vis.length := List.toFinset_card_of_nodup hvnd
  have h2 : N.toFinset.card = N.length := List.toFinset_card_of_nodup hnnd
  have hsubF : vis.toFinset ⊆ N.toFinset.erase w := by
    intro x hx
    rw [List.mem_toFinset] at hx
    rw [Finset.mem_erase]
    exact ⟨fun hh => hwv (hh ▸ hx), List.mem_toFinset.mpr (hsub x hx)⟩
  have hle := Finset.card_le_card hsubF
  rw [Finset.card_erase_of_mem (List.mem_toFinset.mpr hw)] at hle
  have hpos : 0 < N.toFinset.card := Finset.card_pos.mpr ⟨w, List.mem_toFinset.mpr hw⟩
  omega

theorem length_eq_of_sub_sub {vis N : List Nat} (hvnd : vis.Nodup)
    (hnnd : N.Nodup) (h1 : ∀ x ∈ vis, x ∈ N) (h2 : ∀ x ∈ N, x ∈ vis) :
    vis.length = N.length := by
  rw [← List.toFinset_card_of_nodup hvnd, ← List.toFinset_card_of_nodup hnnd]
  congr 1
  ext x
  simp only [List.mem_toFinset]
  exact ⟨h1 x, h2 x⟩

theorem check_loop_snd (g : Graph) :
    (g.check_loop_and_partition).2 =
      decide ((kahn_loop g.nodes (kahn_measure (kahnInit g) + 1) (kahnInit g)).processed
        < g.node_count) := rfl

theorem kahn_initial_inv (g : Graph) (hinv : BuildInv g) :
    KInv g.nodes (kahnInit g) [] := by
  have hdegnd : (akeys g.in_degree).Nodup := by
    rw [hinv.degKeysEq]
    exact hinv.ndKeys
  have hq : ∀ x, x ∈ (kahnInit g).queue ↔ (x, 0) ∈ g.in_degree := by
    intro x
    show x ∈ ((g.in_degree.filter (fun p => p.2 = 0)).map Prod.fst).reverse ↔ _
    rw [List.mem_reverse, List.mem_map]
    constructor
    · rintro ⟨⟨a, b⟩, hp, hfst⟩
      rw [List.mem_filter] at hp
      obtain ⟨hp1, hp2⟩ := hp
      rw [decide_eq_true_eq] at hp2
      simp only at hp2 hfst
      subst hfst
      subst hp2
      exact hp1
    · intro hx
      exact ⟨(x, 0), List.mem_filter.mpr ⟨hx, by simp⟩, rfl⟩
  have hqz : ∀ x ∈ (kahnInit g).queue, x ∈ akeys g.nodes ∧ updeg g.nodes [] x = 0 := by
    intro x hx
    have hmem := (hq x).mp hx
    have hxk : x ∈ akeys g.in_degree := by
      rw [akeys_eq_map]
      exact List.mem_map.mpr ⟨(x, 0), hmem, rfl⟩
    have hxN : x ∈ akeys g.nodes := hinv.degKeysEq ▸ hxk
    have hlk : alookup x g.in_degree = some 0 := alookup_of_mem_nodup hdegnd hmem
    have hlk' := hinv.degInit x hxN
    rw [hlk] at hlk'
    injection hlk' with hlk'
    exact ⟨hxN, hlk'.symm⟩
  refine
    { visN := ?_, visND := List.nodup_nil, visZero := ?_, queueN := ?_,
      queueND := ?_, queueNotVis := ?_, queueZero := ?_,
      degKeys := hinv.degKeysEq, degVal := hinv.degInit, zeroCov := ?_,
      procLen := rfl, visTopo := ?_ }
  · intro v hv
    simp at hv
  · intro v hv
    simp at hv
  · intro v hv
    exact (hqz v hv).1
  · show (((g.in_degree.filter (fun p => p.2 = 0)).map Prod.fst).reverse).Nodup
    rw [List.nodup_reverse]
    have hsl : List.Sublist ((g.in_degree.filter (fun p => decide (p.2 = 0))).map Prod.fst)
        (g.in_degree.map Prod.fst) :=
      List.Sublist.map Prod.fst (List.filter_sublist _)
    have hnd2 : (g.in_degree.map Prod.fst).Nodup := by
      rw [← akeys_eq_map]
      exact hdegnd
    exact List.Nodup.sublist hsl hnd2
  · intro v _ hv
    simp at hv
  · intro v hv
    exact (hqz v hv).2
  · intro v hvN h0
    right
    rw [hq v]
    have hlk := hinv.degInit v hvN
    rw [h0] at hlk
    exact mem_of_alookup hlk
  · intro i u w hget
    simp at hget

theorem check_loop_iff_cycle (g : Graph) (hinv : BuildInv g) :
    (g.check_loop_and_partition).2 = true ↔ HasCycle g.nodes := by
  obtain ⟨vis, hfin⟩ := kahn_loop_inv g.nodes hinv.ndKeys hinv.succOK
    (kahn_measure (kahnInit g) + 1) (kahnInit g) [] (kahn_initial_inv g hinv)
  have hqe : (kahn_loop g.nodes (kahn_measure (kahnInit g) + 1) (kahnInit g)).queue
      = [] :=
    kahn_loop_queue_empty g.nodes (kahn_measure (kahnInit g) + 1) (kahnInit g)
      (Nat.le_succ _)
  rw [check_loop_snd, decide_eq_true_eq]
  set stf := kahn_loop g.nodes (kahn_measure (kahnInit g) + 1) (kahnInit g) with hstf
  have hproc : stf.processed = vis.length := hfin.procLen
  constructor
  · intro hlt
    rw [hproc, hinv.countEq] at hlt
    have hmiss : ∃ w, w ∈ akeys g.nodes ∧ w ∉ vis := by
      by_contra hall
      push_neg at hall
      have := length_eq_of_sub_sub hfin.visND hinv.ndKeys hfin.visN hall
      omega
    obtain ⟨w0, hw0N, hw0v⟩ := hmiss
    set U := (akeys g.nodes).filter (fun x => decide (x ∉ vis)) with hU
    have hUmem : ∀ x, x ∈ U ↔ x ∈ akeys g.nodes ∧ x ∉ vis := by
      intro x
      rw [hU, List.mem_filter, decide_eq_true_eq]
    have hne : U ≠ [] := by
      intro hc
      have hmem : w0 ∈ U := (hUmem w0).mpr ⟨hw0N, hw0v⟩
      rw [hc] at hmem
      simp at hmem
    apply cycle_of_closed_preds g.nodes U hne
    intro w hw
    obtain ⟨hwN, hwv⟩ := (hUmem w).mp hw
    have hwq : w ∉ stf.queue := by
      rw [hqe]
      exact List.not_mem_nil w
    have hdeg : updeg g.nodes vis w ≠ 0 := by
      intro h0
      rcases hfin.zeroCov w hwN h0 with hmem | hmem
      · exact hwv hmem
      · exact hwq hmem
    obtain ⟨u, hunv, hedge⟩ := updeg_pos_exists hdeg
    exact ⟨u, (hUmem u).mpr ⟨edge_mem_left hedge, hunv⟩, hedge⟩
  · intro hcyc
    rw [hproc, hinv.countEq]
    have hnot : ¬ ∀ x ∈ akeys g.nodes, x ∈ vis := fun hall =>
      no_cycle_of_all_visited g.nodes vis hinv.succOK hfin.visTopo hall hcyc
    push_neg at hnot
    obtain ⟨w, hwN, hwv⟩ := hnot
    exact length_lt_of_missing hfin.visND hinv.ndKeys hfin.visN hwN hwv

/-! ## Shared lemmas -/

theorem remove_duplicates_go_idem (l seen : List Nat) :
    remove_duplicates_go seen (remove_duplicates_go seen l) = remove_duplicates_go seen l := by
  induction l generalizing seen with
  | nil => simp [remove_duplicates_go]
  | cons x rest ih =>
    by_cases hx : x ∈ seen
    · simp [remove_duplicates_go, hx, ih]
    · simp [remove_duplicates_go, hx, ih]

theorem remove_duplicates_idem (l : List Nat) :
    remove_duplicates (remove_duplicates l) = remove_duplicates l :=
  remove_duplicates_go_idem l []

theorem aggregate_errors_eq_none_iff (es : List GraphError) :
    aggregate_errors es = none ↔ es = [] := by
  match es with
  | [] => simp [aggregate_errors]
  | [e] => simp [aggregate_errors]
  | e1 :: e2 :: rest => simp [aggregate_errors]

/-- `Graph::start` written out with projections (definitional unfolding). -/
theorem Graph.start_eq (g : Graph) :
    g.start =
      (if (g.init.check_loop_and_partition).2 then
        ((g.init.check_loop_and_partition).1, some .GraphLoopDetected)
       else if (g.init.check_loop_and_partition).1.is_active = false then
        ((g.init.check_loop_and_partition).1, some .GraphNotActive)
       else (g.init.check_loop_and_partition).1.run) := rfl

theorem check_preserves_is_active (g : Graph) :
    (g.init.check_loop_and_partition).1.is_active = g.is_active := rfl

theorem run_snd_eq_aggregate (g : Graph) :
    ((g.init.check_loop_and_partition).1.run).2 = aggregate_errors g.run_errors := rfl

theorem run_fst_is_active_false (g : Graph) :
    ((g.init.check_loop_and_partition).1.run).1.is_active = false := rfl

/-- Entries of `execute_states` right after `Graph::init` on a built graph
are all fresh pending states. -/
theorem build_execute_states (ops : List BuildOp) :
    (build ops).execute_states = [] := by
  suffices h : ∀ g : Graph, (ops.foldl build_step g).execute_states = g.execute_states by
    exact h Graph.new
  induction ops with
  | nil => intro g; rfl
  | cons op rest ih =>
    intro g
    rw [List.foldl_cons, ih]
    cases op with
    | node id c b => rfl
    | edge u tos =>
      show (g.add_edge u tos).execute_states = g.execute_states
      unfold Graph.add_edge
      cases alookup u g.nodes <;> rfl

theorem init_states_fresh_aux (keys : List Nat) (m : List (Nat × ExecState))
    (hm : ∀ id st, alookup id m = some st → st = ExecState.new) :
    ∀ id st, alookup id (keys.foldl (fun m id => aset id ExecState.new m) m) = some st →
      st = ExecState.new := by
  induction keys generalizing m with
  | nil => exact hm
  | cons k rest ih =>
    intro id st h
    refine ih (aset k ExecState.new m) ?_ id st h
    intro id' st' h'
    by_cases hk : k = id'
    · subst hk
      rw [alookup_aset_self] at h'
      injection h' with h''
      exact h''.symm
    · rw [alookup_aset_ne hk] at h'
      exact hm id' st' h'

theorem run_task_none {r : RunResult} {id : Nat}
    (h : alookup id r.nodes = none) : run_task r id = r := by
  unfold run_task
  rw [h]

theorem run_task_panics {r : RunResult} {id : Nat} {nd : NodeRec}
    (h : alookup id r.nodes = some nd) (hb : nd.behavior = .panics) :
    run_task r id =
      { r with
        nodes := aset id { nd with in_channels := [], out_channels := [] } r.nodes,
        errors := r.errors ++ [.PanicOccurred id] } := by
  unfold run_task
  simp only [h, hb]

theorem run_task_no_state {r : RunResult} {id : Nat} {nd : NodeRec} {out : Output}
    (h : alookup id r.nodes = some nd) (hb : nd.behavior = .returns out)
    (hs : alookup id r.states = none) : run_task r id = r := by
  unfold run_task
  simp only [h, hb, hs]

theorem run_task_err {r : RunResult} {id : Nat} {nd : NodeRec} {out : Output}
    {st : ExecState}
    (h : alookup id r.nodes = some nd) (hb : nd.behavior = .returns out)
    (hs : alookup id r.states = some st) (he : out.is_err = true) :
    run_task r id =
      { r with
        states := aset id ((st.set_output out).exe_fail) r.states,
        errors := r.errors ++ [.ExecutionFailed id ((out.get_err).getD "")] } := by
  unfold run_task
  simp only [h, hb, hs]
  simp [he]

theorem run_task_ok {r : RunResult} {id : Nat} {nd : NodeRec} {out : Output}
    {st : ExecState}
    (h : alookup id r.nodes = some nd) (hb : nd.behavior = .returns out)
    (hs : alookup id r.states = some st) (he : out.is_err = false) :
    run_task r id =
      { r with
        states := aset id ((st.set_output out).exe_success) r.states,
        flag := if out.conditional_result = some false then false else r.flag } := by
  unfold run_task
  simp only [h, hb, hs]
  simp [he]

theorem run_task_errors_mono (r : RunResult) (id : Nat) :
    ∃ tail, (run_task r id).errors = r.errors ++ tail := by
  rcases hn : alookup id r.nodes with _ | nd
  · exact ⟨[], by rw [run_task_none hn]; simp⟩
  · rcases hb : nd.behavior with out | _
    · rcases hs : alookup id r.states with _ | st
      · exact ⟨[], by rw [run_task_no_state hn hb hs]; simp⟩
      · rcases he : out.is_err with _ | _
        · exact ⟨[], by rw [run_task_ok hn hb hs he]; simp⟩
        · exact ⟨[.ExecutionFailed id ((out.get_err).getD "")],
            by rw [run_task_err hn hb hs he]⟩
    · exact ⟨[.PanicOccurred id], by rw [run_task_panics hn hb]⟩

theorem run_task_errors_shape (r : RunResult) (id : Nat)
    (h : ∀ e ∈ r.errors, (∃ a b, e = GraphError.ExecutionFailed a b) ∨
      (∃ a, e = GraphError.PanicOccurred a)) :
    ∀ e ∈ (run_task r id).errors, (∃ a b, e = GraphError.ExecutionFailed a b) ∨
      (∃ a, e = GraphError.PanicOccurred a) := by
  obtain ⟨tail, htail, hshape⟩ : ∃ tail, (run_task r id).errors = r.errors ++ tail ∧
      ∀ e ∈ tail, (∃ a b, e = GraphError.ExecutionFailed a b) ∨
        (∃ a, e = GraphError.PanicOccurred a) := by
    rcases hn : alookup id r.nodes with _ | nd
    · exact ⟨[], by rw [run_task_none hn]; simp, by simp⟩
    · rcases hb : nd.behavior with out | _
      · rcases hs : alookup id r.states with _ | st
        · exact ⟨[], by rw [run_task_no_state hn hb hs]; simp, by simp⟩
        · rcases he : out.is_err with _ | _
          · exact ⟨[], by rw [run_task_ok hn hb hs he]; simp, by simp⟩
          · refine ⟨[.ExecutionFailed id ((out.get_err).getD "")],
              by rw [run_task_err hn hb hs he], ?_⟩
            intro e hmem
            rw [List.mem_singleton] at hmem
            subst hmem
            exact Or.inl ⟨id, _, rfl⟩
      · refine ⟨[.PanicOccurred id], by rw [run_task_panics hn hb], ?_⟩
        intro e hmem
        rw [List.mem_singleton] at hmem
        subst hmem
        exact Or.inr ⟨id, rfl⟩
  intro e hmem
  rw [htail] at hmem
  rcases List.mem_append.mp hmem with h1 | h1
  · exact h e h1
  · exact hshape e h1

theorem run_chunk_errors_shape (block : List Nat) :
    ∀ r : RunResult, (∀ e ∈ r.errors, (∃ a b, e = GraphError.ExecutionFailed a b) ∨
      (∃ a, e = GraphError.PanicOccurred a)) →
    ∀ e ∈ (run_chunk r block).errors, (∃ a b, e = GraphError.ExecutionFailed a b) ∨
      (∃ a, e = GraphError.PanicOccurred a) := by
  induction block with
  | nil => intro r h; exact h
  | cons id rest ih =>
    intro r h
    exact ih (run_task r id) (run_task_errors_shape r id h)

theorem run_blocks_errors_shape (bs : List (List Nat)) :
    ∀ r : RunResult, (∀ e ∈ r.errors, (∃ a b, e = GraphError.ExecutionFailed a b) ∨
      (∃ a, e = GraphError.PanicOccurred a)) →
    ∀ e ∈ (run_blocks r bs).errors, (∃ a b, e = GraphError.ExecutionFailed a b) ∨
      (∃ a, e = GraphError.PanicOccurred a) := by
  induction bs with
  | nil => intro r h; exact h
  | cons b rest ih =>
    intro r h
    have heq : run_blocks r (b :: rest) =
        if r.flag = false then run_blocks r rest
        else run_blocks (run_chunk r b) rest := rfl
    rw [heq]
    by_cases hf : r.flag = false
    · rw [if_pos hf]
      exact ih r h
    · rw [if_neg hf]
      exact ih (run_chunk r b) (run_chunk_errors_shape b r h)

theorem run_errors_shape (g : Graph) :
    ∀ e ∈ g.run_errors, (∃ a b, e = GraphError.ExecutionFailed a b) ∨
      (∃ a, e = GraphError.PanicOccurred a) := by
  intro e he
  have hdef : g.run_errors =
      (run_blocks
        { nodes := ((g.init.check_loop_and_partition).1).nodes,
          states := ((g.init.check_loop_and_partition).1).execute_states,
          flag := true, errors := [] }
        ((g.init.check_loop_and_partition).1).blocks).errors := rfl
  rw [hdef] at he
  refine run_blocks_errors_shape _ _ ?_ e he
  intro e' he'
  simp at he'

theorem aggregate_shape_ne_loop (es : List GraphError)
    (h : ∀ e ∈ es, (∃ a b, e = GraphError.ExecutionFailed a b) ∨
      (∃ a, e = GraphError.PanicOccurred a)) :
    aggregate_errors es ≠ some GraphError.GraphLoopDetected := by
  match es with
  | [] =>
    intro hc
    exact Option.noConfusion hc
  | [e] =>
    intro hc
    have he : aggregate_errors [e] = some e := rfl
    rw [he] at hc
    injection hc with hc
    subst hc
    rcases h _ (List.mem_singleton_self _) with ⟨a, b, hab⟩ | ⟨a, ha⟩
    · exact GraphError.noConfusion hab
    · exact GraphError.noConfusion ha
  | e1 :: e2 :: rest =>
    intro hc
    have he : aggregate_errors (e1 :: e2 :: rest) =
        some (.MultipleErrors (e1 :: e2 :: rest)) := rfl
    rw [he] at hc
    injection hc with hc
    exact GraphError.noConfusion hc

theorem check_run_ne_loop (g : Graph) :
    ((g.init.check_loop_and_partition).1.run).2 ≠ some GraphError.GraphLoopDetected := by
  rw [run_snd_eq_aggregate]
  exact aggregate_shape_ne_loop _ (run_errors_shape g)

theorem run_task_preserves_StateInv (r : RunResult) (id : Nat)
    (h : StateInv r) : StateInv (run_task r id) := by
  rcases hn : alookup id r.nodes with _ | nd
  · rw [run_task_none hn]; exact h
  · rcases hb : nd.behavior with out | _
    · rcases hs : alookup id r.states with _ | st
      · rw [run_task_no_state hn hb hs]; exact h
      · rcases he : out.is_err with _ | _
        · rw [run_task_ok hn hb hs he]
          intro id' st' h'
          by_cases hid : id = id'
          · subst hid
            rw [alookup_aset_self] at h'
            injection h' with h''
            refine Or.inr (Or.inr ⟨by rw [← h'']; rfl, out, by rw [← h'']; rfl, he⟩)
          · rw [alookup_aset_ne hid] at h'
            exact h id' st' h'
        · rw [run_task_err hn hb hs he]
          intro id' st' h'
          by_cases hid : id = id'
          · subst hid
            rw [alookup_aset_self] at h'
            injection h' with h''
            refine Or.inr (Or.inl ⟨by rw [← h'']; rfl, by simp⟩)
          · rw [alookup_aset_ne hid] at h'
            rcases h id' st' h' with h0 | h0 | h0
            · exact Or.inl h0
            · exact Or.inr (Or.inl ⟨h0.1, by simp⟩)
            · exact Or.inr (Or.inr h0)
    · rw [run_task_panics hn hb]
      intro id' st' h'
      rcases h id' st' h' with h0 | h0 | h0
      · exact Or.inl h0
      · exact Or.inr (Or.inl ⟨h0.1, by simp⟩)
      · exact Or.inr (Or.inr h0)

theorem run_chunk_preserves_StateInv (b : List Nat) (r : RunResult)
    (h : StateInv r) : StateInv (run_chunk r b) := by
  unfold run_chunk
  induction b generalizing r with
  | nil => exact h
  | cons x rest ih =>
    rw [List.foldl_cons]
    exact ih (run_task r x) (run_task_preserves_StateInv r x h)

theorem run_blocks_preserves_StateInv (bs : List (List Nat)) (r : RunResult)
    (h : StateInv r) : StateInv (run_blocks r bs) := by
  induction bs generalizing r with
  | nil => exact h
  | cons b rest ih =>
    unfold run_blocks
    by_cases hf : r.flag = false
    · simp only [hf, if_true]
      exact ih r h
    · simp only [hf, if_false]
      exact ih (run_chunk r b) (run_chunk_preserves_StateInv b r h)

/-! ## Claim theorems -/

/-- C8: for `src/task/state.rs`, `ExecState::get_output` is claimed total —
returning the stored `Output` after `set_output` and `None` while pending.
The evaluation shows the code instead panics while pending: before any
`set_output` the `AtomicPtr` is null and `as_ref().unwrap()` aborts the
thread (left conjunct), while after `set_output` the stored payload comes
back (right conjunct). -/
theorem c8_get_output_panics_when_pending_eval :
    (ExecStateV1.new 0).get_output = .error "called Option::unwrap on a None value" ∧
    ((ExecStateV1.new 0).set_output ⟨some 7⟩).get_output = .ok (some 7) :=
  ⟨rfl, rfl⟩

/-- C9: after `close(id)` the map entry for `id` is gone, so every subsequent
`recv_from`/`blocking_recv_from` (for `InChannels`) and
`send_to`/`blocking_send_to` (for `OutChannels`) with that id returns the
missing-channel error `ChannelNExist` — never `Closed` — and no operation
panics on an unknown id. -/
theorem c9_close_then_ops_channel_nexist
    (m : InChannels) (om : OutChannels) (id : Nat) (x : Content)
    (hm : (akeys m).Nodup) (hom : (akeys om).Nodup) :
    alookup id (InChannels.close m id) = none ∧
    (InChannels.recv_from (InChannels.close m id) id).2 = .error .ChannelNExist ∧
    (InChannels.blocking_recv_from (InChannels.close m id) id).2 = .error .ChannelNExist ∧
    alookup id (OutChannels.close om id) = none ∧
    OutChannels.send_to (OutChannels.close om id) id x = .error .ChannelNExist ∧
    OutChannels.blocking_send_to (OutChannels.close om id) id x = .error .ChannelNExist := by
  have hin : alookup id (InChannels.close m id) = none := by
    unfold InChannels.close
    cases h : alookup id m with
    | none => exact h
    | some c => exact alookup_aremove_self hm
  have hout : alookup id (OutChannels.close om id) = none := by
    unfold OutChannels.close
    cases h : alookup id om with
    | none => exact h
    | some c => exact alookup_aremove_self hom
  refine ⟨hin, ?_, ?_, hout, ?_, ?_⟩
  · simp [InChannels.recv_from, hin]
  · simp [InChannels.blocking_recv_from, hin]
  · simp [OutChannels.send_to, hout]
  · simp [OutChannels.blocking_send_to, hout]

/-- Witness for C9 at a concrete channel map. -/
theorem c9_witness :
    (akeys [(3, InChannel.Mpsc [5])]).Nodup ∧
    (akeys [(3, OutChannel.Mpsc)]).Nodup ∧
    (InChannels.recv_from (InChannels.close [(3, InChannel.Mpsc [5])] 3) 3).2 =
      .error .ChannelNExist := by
  refine ⟨by decide, by decide, ?_⟩
  exact (c9_close_then_ops_channel_nexist [(3, InChannel.Mpsc [5])]
    [(3, OutChannel.Mpsc)] 3 0 (by decide) (by decide)).2.1

/-- C10: `Graph::add_edge` collapses duplicate target ids (calling it on the
deduplicated list gives the same graph), and re-adding an existing edge
`u → v` is a no-op: the sender's `OutChannels`, the receiver's `InChannels`
and `in_degree[v]` — the whole graph — are unchanged. -/
theorem c10_add_edge_dedup_and_idempotent
    (g : Graph) (u v : Nat) (vs : List Nat) (fromRec : NodeRec) (ch : OutChannel) :
    g.add_edge u vs = g.add_edge u (remove_duplicates vs) ∧
    (alookup u g.nodes = some fromRec →
      alookup v fromRec.out_channels = some ch →
      g.add_edge u [v] = g) := by
  constructor
  · simp [Graph.add_edge, remove_duplicates_idem]
  · intro h1 h2
    have hrd : remove_duplicates [v] = [v] := rfl
    have heta : ({ fromRec with out_channels := fromRec.out_channels } : NodeRec) = fromRec := rfl
    simp only [Graph.add_edge, hrd, h1]
    simp only [add_edge_loop1, h2, Option.isSome_some, if_true]
    simp only [heta, aset_eq_of_alookup h1]
    cases hv : alookup v g.nodes with
    | none => simp [add_edge_loop2, hv, alookup]
    | some toRec => simp [add_edge_loop2, hv, alookup]

/-- Witness for C10 at a concrete graph with an existing edge 0 → 1. -/
theorem c10_witness :
    alookup 0 (build opsPair).nodes =
      some { is_condition := false, behavior := .returns (.Out (some 7)),
             out_channels := [(1, OutChannel.Mpsc)], in_channels := [] } ∧
    (build opsPair).add_edge 0 [1, 1] = (build opsPair).add_edge 0 [1] ∧
    (build opsPair).add_edge 0 [1] = build opsPair := by
  refine ⟨rfl, ?_, ?_⟩
  · exact (c10_add_edge_dedup_and_idempotent (build opsPair) 0 1 [1, 1]
      { is_condition := false, behavior := .returns (.Out (some 7)),
        out_channels := [(1, OutChannel.Mpsc)], in_channels := [] }
      OutChannel.Mpsc).1
  · exact (c10_add_edge_dedup_and_idempotent (build opsPair) 0 1 [1]
      { is_condition := false, behavior := .returns (.Out (some 7)),
        out_channels := [(1, OutChannel.Mpsc)], in_channels := [] }
      OutChannel.Mpsc).2 rfl rfl

/-- C3: the claim (and `add_edge`'s own doc comment) promise a broadcast
channel once a sender's outgoing set reaches size ≥ 2, rewriting existing
entries.  Evaluating `add_edge(0, [1, 2])` on three fresh nodes shows the
code allocates two separate mpsc (FIFO) channels and never a broadcast one;
the receiving ends and the `in_degree` increments do land as claimed. -/
theorem c3_add_edge_always_mpsc_eval :
    alookup 0 (build opsFan).nodes =
      some { is_condition := false, behavior := .returns (.Out none),
             out_channels := [(1, OutChannel.Mpsc), (2, OutChannel.Mpsc)],
             in_channels := [] } ∧
    alookup 1 (build opsFan).nodes =
      some { is_condition := false, behavior := .returns (.Out none),
             out_channels := [], in_channels := [(0, InChannel.Mpsc [])] } ∧
    alookup 2 (build opsFan).nodes =
      some { is_condition := false, behavior := .returns (.Out none),
             out_channels := [], in_channels := [(0, InChannel.Mpsc [])] } ∧
    alookup 1 (build opsFan).in_degree = some 1 ∧
    alookup 2 (build opsFan).in_degree = some 1 :=
  ⟨rfl, rfl, rfl, rfl, rfl⟩

/-- C4: the claim says blocks are launched one at a time and a later block's
tasks are never started when the condition flag is false.  The event order of
`Graph::run` on the conditional graph (blocks `[[0], [1]]`, node 0 a
conditional returning false) shows the code spawns the task of node 1 —
block 1 — before block 0 is even awaited, and only aborts it afterwards: its
task can already be running when the abort lands. -/
theorem c4_all_tasks_spawned_before_abort_eval :
    gCondPartitioned.blocks = [[0], [1]] ∧
    gCondPartitioned.run_trace =
      [.spawn 0, .spawn 1, .awaitChunk 0, .abortChunk 1] :=
  ⟨rfl, rfl⟩

/-- C2 counterexample: on the conditional graph (conditional node 0 returns
`ConditionResult(false)`, downstream node 1 aborted) `start` returns `Ok`,
yet node 1's `ExecState` is still `pending` — not `success` as the claim
demands of every node. -/
theorem c2_counterexample_ok_with_pending_node :
    ((build opsCond).start).2 = none ∧
    alookup 1 ((build opsCond).start).1.execute_states =
      some { outcome := .pending, output := none } ∧
    Outcome.pending ≠ Outcome.success :=
  ⟨rfl, rfl, by decide⟩

/-- C6: `reset` does clear `execute_states`, the environment and the active
flag while keeping nodes, edges and `in_degree` — but it leaves `blocks`
populated, and `check_loop_and_partition` appends to `blocks` on the next
`start`, so the node of the single-`Err`-node graph runs twice on the second
run: the first run returns the single `ExecutionFailed` while the rerun
returns `MultipleErrors` with two copies, breaking reset idempotence. -/
theorem c6_reset_rerun_outcome_differs_eval :
    ((build opsErr).start).2 = some (.ExecutionFailed 0 "boom") ∧
    gErrFirst.reset.nodes = (build opsErr).nodes ∧
    gErrFirst.reset.in_degree = (build opsErr).in_degree ∧
    gErrFirst.reset.execute_states = [] ∧
    gErrFirst.reset.env = [] ∧
    gErrFirst.reset.is_active = true ∧
    gErrFirst.reset.blocks = [[0]] ∧
    (gErrFirst.reset.start).1.blocks = [[0], [0]] ∧
    (gErrFirst.reset.start).2 =
      some (.MultipleErrors [.ExecutionFailed 0 "boom", .ExecutionFailed 0 "boom"]) :=
  ⟨rfl, rfl, rfl, rfl, rfl, rfl, rfl, rfl, rfl⟩

/-- C5: when `start` reaches task execution (no cycle detected, graph
active), the returned graph is inactive and the returned value aggregates the
accumulated error list exactly as claimed: `Ok` for an empty list, the single
error itself for one entry, `MultipleErrors` wrapping the list for two or
more. -/
theorem c5_settle_inactive_and_error_aggregation (g : Graph)
    (h1 : (g.init.check_loop_and_partition).2 = false)
    (h2 : g.is_active = true) :
    (g.start).1.is_active = false ∧
    (g.start).2 = aggregate_errors g.run_errors ∧
    ((g.start).2 = none ↔ g.run_errors = []) ∧
    (∀ e, g.run_errors = [e] → (g.start).2 = some e) ∧
    (∀ e1 e2 es, g.run_errors = e1 :: e2 :: es →
      (g.start).2 = some (.MultipleErrors (e1 :: e2 :: es))) := by
  have hs : g.start = (g.init.check_loop_and_partition).1.run := by
    rw [Graph.start_eq g, h1]
    simp [check_preserves_is_active g, h2]
  refine ⟨?_, ?_, ?_, ?_, ?_⟩
  · rw [hs]
    exact run_fst_is_active_false g
  · rw [hs]
    exact run_snd_eq_aggregate g
  · rw [hs, run_snd_eq_aggregate g]
    exact aggregate_errors_eq_none_iff _
  · intro e he
    rw [hs, run_snd_eq_aggregate g, he]
    rfl
  · intro e1 e2 es he
    rw [hs, run_snd_eq_aggregate g, he]
    rfl

/-- Witness for C5 on the single-`Err`-node graph. -/
theorem c5_witness :
    ((build opsErr).init.check_loop_and_partition).2 = false ∧
    (build opsErr).is_active = true ∧
    (build opsErr).run_errors = [.ExecutionFailed 0 "boom"] ∧
    ((build opsErr).start).2 = some (.ExecutionFailed 0 "boom") :=
  ⟨rfl, rfl, rfl,
    (c5_settle_inactive_and_error_aggregation (build opsErr) rfl rfl).2.2.2.1
      (.ExecutionFailed 0 "boom") rfl⟩

theorem run_fst_states_eq (g : Graph) :
    ((g.init.check_loop_and_partition).1.run).1.execute_states =
      (start_run_result g).states := rfl

theorem run_snd_eq_aggregate_result (g : Graph) :
    ((g.init.check_loop_and_partition).1.run).2 =
      aggregate_errors (start_run_result g).errors := rfl

/-- C2 (amended): on a built graph, if `start` returns `Ok` then every node's
`ExecState` is either a `success` whose stored `Output` is not the `Err`
variant, or still `pending` (with no stored output) — pending happens for
nodes in blocks aborted after a false condition; no node is in the `failure`
state.  The claim's stronger form — every node `success` — fails (see the
counterexample). -/
theorem c2_amended_success_or_pending (ops : List BuildOp)
    (h : ((build ops).start).2 = none) :
    ∀ id st, alookup id (((build ops).start).1.execute_states) = some st →
      (st.outcome = .pending ∧ st.output = none) ∨
      (st.outcome = .success ∧ ∃ o, st.output = some o ∧ o.is_err = false) := by
  intro id st hlook
  have hse := Graph.start_eq (build ops)
  by_cases hl : ((build ops).init.check_loop_and_partition).2
  · rw [hse] at h
    simp [hl] at h
  · by_cases ha : ((build ops).init.check_loop_and_partition).1.is_active = false
    · rw [hse] at h
      simp [hl, ha] at h
    · have hstart : (build ops).start = ((build ops).init.check_loop_and_partition).1.run := by
        rw [hse]
        simp [hl, ha]
      rw [hstart, run_snd_eq_aggregate_result] at h
      rw [hstart, run_fst_states_eq] at hlook
      have herrs : (start_run_result (build ops)).errors = [] :=
        (aggregate_errors_eq_none_iff _).mp h
      have hfresh : ∀ id' st',
          alookup id' ((build ops).init.check_loop_and_partition).1.execute_states = some st' →
          st' = ExecState.new := by
        have hstates : ((build ops).init.check_loop_and_partition).1.execute_states
            = (akeys (build ops).nodes).foldl (fun m id => aset id ExecState.new m) [] := by
          show (akeys (build ops).nodes).foldl (fun m id => aset id ExecState.new m)
            (build ops).execute_states = _
          rw [build_execute_states]
        rw [hstates]
        exact init_states_fresh_aux _ [] (by intro a b hab; simp [alookup] at hab)
      have hinv : StateInv (start_run_result (build ops)) := by
        apply run_blocks_preserves_StateInv
        intro id' st' h'
        exact Or.inl (hfresh id' st' h')
      rcases hinv id st hlook with h0 | h0 | h0
      · exact Or.inl (by rw [h0]; exact ⟨rfl, rfl⟩)
      · exact absurd herrs h0.2
      · exact Or.inr h0

/-- Witness for C2 (amended) on the succeeding pair 0 → 1. -/
theorem c2_witness :
    ((build opsPair).start).2 = none ∧
    alookup 0 (((build opsPair).start).1.execute_states) =
      some { outcome := .success, output := some (.Out (some 7)) } ∧
    ((({ outcome := .success, output := some (.Out (some 7))} : ExecState).outcome = .pending ∧
      ({ outcome := .success, output := some (.Out (some 7))} : ExecState).output = none) ∨
     (({ outcome := .success, output := some (.Out (some 7))} : ExecState).outcome = .success ∧
      ∃ o, ({ outcome := .success, output := some (.Out (some 7))} : ExecState).output = some o ∧
        o.is_err = false)) := by
  refine ⟨rfl, rfl, ?_⟩
  exact c2_amended_success_or_pending opsPair rfl 0
    { outcome := .success, output := some (.Out (some 7)) } rfl

/-- C7: for every task entry of the configuration document (with its required
name present): if a user-supplied specific action exists for the entry's key
it is used; otherwise a present `cmd` is wrapped in the default
command-executing action; and when neither is available the parse of the
entry fails with the `NoScriptAttr` error kind. -/
theorem c7_parse_one_action_selection
    (sa : List (String × Nat)) (entry : TaskEntry) (id : Nat) (nm : String)
    (hname : entry.name = some nm) :
    (∀ a, alookup entry.key sa = some a →
      parse_one sa id entry = .ok ⟨id, entry.key, entry.after, nm, .user a, []⟩) ∧
    (alookup entry.key sa = none → ∀ c, entry.cmd = some c →
      parse_one sa id entry = .ok ⟨id, entry.key, entry.after, nm, .commandAction c, []⟩) ∧
    (alookup entry.key sa = none → entry.cmd = none →
      parse_one sa id entry = .error (.NoScriptAttr nm)) := by
  refine ⟨?_, ?_, ?_⟩
  · intro a ha
    simp [parse_one, hname, ha]
  · intro h0 c hc
    simp [parse_one, hname, h0, hc]
  · intro h0 hc
    simp [parse_one, hname, h0, hc]

/-- Witness for C7: an entry with a name but neither a specific action nor a
`cmd` fails with `NoScriptAttr`. -/
theorem c7_witness :
    (⟨"a", some "Task 1", [], none⟩ : TaskEntry).name = some "Task 1" ∧
    parse_one [] 0 ⟨"a", some "Task 1", [], none⟩ = .error (.NoScriptAttr "Task 1") :=
  ⟨rfl,
    (c7_parse_one_action_selection [] ⟨"a", some "Task 1", [], none⟩ 0 "Task 1" rfl).2.2
      rfl rfl⟩

/-- **C1.** For every graph built by an `add_node`/`add_edge` sequence in
which every edge endpoint was previously added as a node, `Graph::start`
returns the `GraphLoopDetected` error if and only if the graph's edges
contain a directed cycle. -/
theorem c1_start_loop_detected_iff_cycle (ops : List BuildOp)
    (h : wfBuild [] ops = true) :
    ((build ops).start).2 = some GraphError.GraphLoopDetected ↔
      HasCycle (build ops).nodes := by
  have hinv := build_inv ops h
  have hinvI : BuildInv ((build ops).init) :=
    { ndKeys := hinv.ndKeys, degKeysEq := hinv.degKeysEq, countEq := hinv.countEq,
      succOK := hinv.succOK, degInit := hinv.degInit, activeTrue := hinv.activeTrue,
      blocksNil := hinv.blocksNil }
  have hiff := check_loop_iff_cycle ((build ops).init) hinvI
  rw [Graph.start_eq]
  by_cases hl : ((build ops).init.check_loop_and_partition).2 = true
  · rw [if_pos hl]
    constructor
    · intro _
      exact hiff.mp hl
    · intro _
      rfl
  · rw [if_neg hl]
    have hact : ((build ops).init.check_loop_and_partition).1.is_active = true := by
      rw [check_preserves_is_active]
      exact hinv.activeTrue
    have hne : ¬ (((build ops).init.check_loop_and_partition).1.is_active = false) := by
      rw [hact]
      simp
    rw [if_neg hne]
    constructor
    · intro habs
      exact absurd habs (check_run_ne_loop (build ops))
    · intro hcyc
      exact absurd (hiff.mpr hcyc) hl

theorem c1_witness :
    wfBuild [] opsCycle = true ∧ HasCycle (build opsCycle).nodes :=
  ⟨rfl, (c1_start_loop_detected_iff_cycle opsCycle rfl).mp rfl⟩

end Dagrs
